import Mathlib

/-! libbirch: labels, memos and label handles.

A shallow embedding of `libbirch/Label.cpp` (`mapGet`, `mapPull`, `mapCopy`)
and `libbirch/LabelPtr.cpp` (the reference-counted handle to a label),
followed by the properties proved about them.

Objects and labels are identified by natural numbers (their addresses); a
nullable pointer is an `Option`.  Every operation returns, next to its
result, the heap it leaves behind and the list of calls it made on its
collaborators (memo lookups and insertions, `thaw`, `copy`, `recycle`), so
that statements such as "makes no copy" are statements about that list.
-/

namespace libbirch

/-- Identity (address) of an object, an `Any*` that is not null. -/
abbrev Obj := Nat

/-- Identity (address) of a label, a `Label*` that is not null. -/
abbrev Lbl := Nat

/-- Modelled from the spec: the header of `Any` (`Any.hpp` is not among the
sources).  `frozen` is the frozen flag, `frozenUnique` the flag recorded at
freeze time when the object had exactly one owner, `sharedCount` and
`weakCount` the counts of owning and non-owning handles. -/
structure Any where
  frozen : Bool
  frozenUnique : Bool
  sharedCount : Nat
  weakCount : Nat
deriving DecidableEq, Repr

/-- Modelled from the spec: the memo of a label (`Memo.hpp` is not among the
sources), a mapping from the identity of an original to the identity of its
copy, kept as an association list with the latest insertion first. -/
abbrev Memo := List (Obj × Obj)

/-- Modelled from the spec: `Memo::get(key)`, the value recorded for `key`,
or null when there is none. -/
def Memo.get (m : Memo) (key : Obj) : Option Obj :=
  match m with
  | [] => none
  | (k, v) :: rest => if k = key then some v else Memo.get rest key

/-- Modelled from the spec: `Memo::put(key, value)`, record `value` for
`key`. -/
def Memo.put (m : Memo) (key value : Obj) : Memo :=
  (key, value) :: m

/-- A label: its own frozen flag (a `Label` is an `Any`) and its memo. -/
structure Label where
  frozen : Bool
  memo : Memo
deriving DecidableEq, Repr

/-- The heap: objects below `top` have been allocated, `any` gives the header
of each object, `label` the state of each label and `context` the member
`context` of each object (`LazyAny.hpp`), the label responsible for its
creation, null for an object that has no owning context. -/
structure Heap where
  top : Nat
  any : Obj → Any
  label : Lbl → Label
  context : Obj → Option Lbl

/-- An object is live when it has been allocated. -/
def Heap.live (h : Heap) (o : Obj) : Bool :=
  decide (o < h.top)

/-- Modelled from the spec: `Any::isFrozen()`. -/
def Heap.isFrozen (h : Heap) (o : Obj) : Bool :=
  (h.any o).frozen

/-- Modelled from the spec: `Any::isUnique()`, true iff the shared count is
one and the weak count is zero. -/
def Heap.isUnique (h : Heap) (o : Obj) : Bool :=
  (h.any o).sharedCount == 1 && (h.any o).weakCount == 0

/-- Modelled from the spec: `Any::isFrozenUnique()`, frozen while there was
exactly one owner at freeze time. -/
def Heap.isFrozenUnique (h : Heap) (o : Obj) : Bool :=
  (h.any o).frozenUnique

/-- The call `memo.get(key)` made inside label `l`. -/
def Heap.memoGet (h : Heap) (l : Lbl) (key : Obj) : Option Obj :=
  (h.label l).memo.get key

/-- The call `memo.put(key, value)` made inside label `l`. -/
def Heap.memoPut (h : Heap) (l : Lbl) (key value : Obj) : Heap :=
  { top := h.top
    any := h.any
    label := Function.update h.label l
      ⟨(h.label l).frozen, (h.label l).memo.put key value⟩
    context := h.context }

/-- Modelled from the spec: `thaw()` called by label `l` on itself, which
clears the label's own frozen flag. -/
def Heap.thaw (h : Heap) (l : Lbl) : Heap :=
  { top := h.top
    any := h.any
    label := Function.update h.label l ⟨false, (h.label l).memo⟩
    context := h.context }

/-- The virtual methods of `Any` that `Label` calls and that derived classes
provide: `o->copy(label)` returns the heap it leaves and the new object,
`o->recycle(label)` returns the heap it leaves. -/
structure Virt where
  copy : Heap → Obj → Lbl → Heap × Obj
  recycle : Heap → Obj → Lbl → Heap

/-- A call made by a label operation on one of its collaborators. -/
inductive Event where
  | memoGet (l : Lbl) (key : Obj)
  | memoPut (l : Lbl) (key value : Obj)
  | thaw (l : Lbl)
  | copy (o : Obj) (l : Lbl)
  | recycle (o : Obj) (l : Lbl)
deriving DecidableEq, Repr

/-- The local variables of the chain walk of `mapGet` and `mapPull`, with
the calls made so far. -/
structure Walk where
  prev : Option Obj
  next : Option Obj
  frozen : Bool
  trace : List Event
deriving DecidableEq, Repr

/-- The loop `while (frozen && next) { prev = next; next = memo.get(prev);
if (next) frozen = next->isFrozen(); }` of `mapGet` and `mapPull`, run for at
most `fuel` iterations; `none` when the loop is still running after them. -/
def chainWalk (h : Heap) (l : Lbl) : Nat → Walk → Option Walk
  | 0, w => if w.frozen && w.next.isSome then none else some w
  | fuel + 1, w =>
    match w.frozen, w.next with
    | true, some n =>
      chainWalk h l fuel
        { prev := some n
          next := h.memoGet l n
          frozen := match h.memoGet l n with
            | some m => h.isFrozen m
            | none => true
          trace := w.trace ++ [Event.memoGet l n] }
    | _, _ => some w

/-- The local variables on entry to the loop: `prev = nullptr; next = o;
frozen = o->isFrozen()`. -/
def Walk.start (h : Heap) (o : Obj) : Walk :=
  { prev := none, next := some o, frozen := h.isFrozen o, trace := [] }

/-- The statement `if (!next) next = prev;` after the loop. -/
def Walk.last (w : Walk) : Option Obj :=
  match w.next with
  | some n => some n
  | none => w.prev

/-- What a label operation gives back: the returned pointer, the heap after
the call and the calls made, in order. -/
structure Out where
  ret : Obj
  heap : Heap
  trace : List Event

/-- `Label::mapGet(o)` called on label `l`; `none` when the chain walk does
not finish within `fuel` iterations.  `next->isFrozenUnique()` is read after
the copy has been made, as in the source.  The closing
`assert(!next->isFrozen())` is not run here: it is what is proved of the
result. -/
def mapGet (v : Virt) (fuel : Nat) (h : Heap) (l : Lbl) (o : Obj) : Option Out :=
  match chainWalk h l fuel (Walk.start h o) with
  | none => none
  | some w =>
    match w.last with
    | none => none
    | some next =>
      if w.frozen then
        if h.isUnique next then
          some { ret := next
                 heap := v.recycle h next l
                 trace := w.trace ++ [Event.recycle next l] }
        else
          let h1 := (v.copy h next l).1
          let copied := (v.copy h next l).2
          if !h1.isFrozenUnique next then
            some { ret := copied
                   heap := (h1.thaw l).memoPut l next copied
                   trace := w.trace ++ [Event.copy next l, Event.thaw l,
                     Event.memoPut l next copied] }
          else
            some { ret := copied
                   heap := h1
                   trace := w.trace ++ [Event.copy next l] }
      else
        some { ret := next, heap := h, trace := w.trace }

/-- `Label::mapPull(o)` called on label `l`; `none` when the chain walk does
not finish within `fuel` iterations. -/
def mapPull (fuel : Nat) (h : Heap) (l : Lbl) (o : Obj) : Option Out :=
  match chainWalk h l fuel (Walk.start h o) with
  | none => none
  | some w =>
    match w.last with
    | none => none
    | some next => some { ret := next, heap := h, trace := w.trace }

/-- `Label::mapCopy(o)` called on label `l`. -/
def mapCopy (v : Virt) (h : Heap) (l : Lbl) (o : Obj) : Out :=
  let h1 := (v.copy h o l).1
  let next := (v.copy h o l).2
  if !h1.isFrozenUnique o then
    { ret := next
      heap := (h1.thaw l).memoPut l o next
      trace := [Event.copy o l, Event.thaw l, Event.memoPut l o next] }
  else
    { ret := next, heap := h1, trace := [Event.copy o l] }

/-- What the chain walk keeps true of its local variables: while `next` is
not null `frozen` is the frozen flag of `next`; once `next` is null, `frozen`
is set and `prev` is a frozen object without a memo entry. -/
def Walk.Inv (h : Heap) (l : Lbl) (w : Walk) : Prop :=
  (∀ n, w.next = some n → w.frozen = h.isFrozen n) ∧
  (w.next = none → w.frozen = true ∧
    ∃ p, w.prev = some p ∧ h.isFrozen p = true ∧ h.memoGet l p = none)

/-- The contract a `copy(label)` is expected to meet: the object it returns
is newly allocated and not frozen, objects allocated before stay allocated
and keep their frozen flags, the source keeps its whole header, and no
label is touched. -/
structure Virt.CopyOk (v : Virt) : Prop where
  fresh : ∀ (h : Heap) (o : Obj) (l : Lbl), h.live (v.copy h o l).2 = false
  born : ∀ (h : Heap) (o : Obj) (l : Lbl), (v.copy h o l).1.live (v.copy h o l).2 = true
  unfrozen : ∀ (h : Heap) (o : Obj) (l : Lbl), (v.copy h o l).1.isFrozen (v.copy h o l).2 = false
  keeps : ∀ (h : Heap) (o : Obj) (l : Lbl) (x : Obj), h.live x = true →
    (v.copy h o l).1.live x = true ∧
    (v.copy h o l).1.isFrozen x = h.isFrozen x ∧
    (v.copy h o l).1.isFrozenUnique x = h.isFrozenUnique x
  source : ∀ (h : Heap) (o : Obj) (l : Lbl), h.live o = true → (v.copy h o l).1.any o = h.any o
  labels : ∀ (h : Heap) (o : Obj) (l : Lbl), (v.copy h o l).1.label = h.label

/-- The contract a `recycle(label)` is expected to meet: the receiver is
reused in place and left not frozen, the other objects keep their frozen
flags, nothing is allocated and no label is touched. -/
structure Virt.RecycleOk (v : Virt) : Prop where
  unfrozen : ∀ (h : Heap) (o : Obj) (l : Lbl), (v.recycle h o l).isFrozen o = false
  keeps : ∀ (h : Heap) (o : Obj) (l : Lbl) (x : Obj), x ≠ o →
    (v.recycle h o l).isFrozen x = h.isFrozen x ∧
    (v.recycle h o l).isFrozenUnique x = h.isFrozenUnique x
  top : ∀ (h : Heap) (o : Obj) (l : Lbl), (v.recycle h o l).top = h.top
  labels : ∀ (h : Heap) (o : Obj) (l : Lbl), (v.recycle h o l).label = h.label

/-- Modelled from the spec: the plainest `copy` and `recycle` (the classes
that override them are not among the sources).  `copy(label)` allocates the
next free object, not frozen, not yet owned and with `label` as its owning
context; `recycle(label)` clears the frozen flags of its receiver in
place. -/
def stdVirt : Virt where
  copy h _ l :=
    ({ top := h.top + 1
       any := Function.update h.any h.top ⟨false, false, 0, 0⟩
       label := h.label
       context := Function.update h.context h.top (some l) }, h.top)
  recycle h o _ :=
    { top := h.top
      any := Function.update h.any o
        ⟨false, false, (h.any o).sharedCount, (h.any o).weakCount⟩
      label := h.label
      context := h.context }

/-- A small heap: object 0 is frozen with two owners, object 1 is frozen
with one owner (and was so when frozen), object 2 is not frozen, object 3 was
frozen with one owner and has two owners now; every label is frozen and has
an empty memo; objects 0 and 2 have no owning context, the others are owned
by label 1. -/
def exHeap : Heap where
  top := 4
  any o :=
    if o = 0 then ⟨true, false, 2, 0⟩
    else if o = 1 then ⟨true, true, 1, 0⟩
    else if o = 3 then ⟨true, true, 2, 0⟩
    else ⟨false, false, 1, 0⟩
  label _ := ⟨true, []⟩
  context o := if o = 0 ∨ o = 2 then none else some 1

/-- The heap after `n` successive calls `mapGet(o)` on label `l`. -/
def mapGetTimes (v : Virt) (fuel : Nat) (l : Lbl) (o : Obj) : Nat → Heap → Option Heap
  | 0, h => some h
  | n + 1, h =>
    match mapGet v fuel h l o with
    | none => none
    | some out => mapGetTimes v fuel l o n out.heap

/-- The heap after `n` successive calls `mapPull(o)` on label `l`, with all
the calls they made, in order. -/
def mapPullTimes (fuel : Nat) (l : Lbl) (o : Obj) : Nat → Heap → Option (Heap × List Event)
  | 0, h => some (h, [])
  | n + 1, h =>
    match mapPull fuel h l o with
    | none => none
    | some out =>
      match mapPullTimes fuel l o n out.heap with
      | none => none
      | some r => some (r.1, out.trace ++ r.2)

/-- A call made by a handle on the label it targets. -/
inductive PtrEvent where
  | incShared (l : Lbl)
  | decShared (l : Lbl)
  | decSharedReachable (l : Lbl)
  | mark (l : Lbl)
  | scan (l : Lbl)
  | reach (l : Lbl)
  | collect (l : Lbl)
deriving DecidableEq, Repr

/-- The labels and the handles on them: the address `root()` of the root
label, the shared count of each label, which labels have been destroyed, the
pointer held by each handle (a handle is named by its position; a destructed
handle holds null), and the calls made on labels so far. -/
structure PtrState where
  root : Lbl
  sharedCount : Lbl → Nat
  destroyed : Lbl → Bool
  handles : List (Option Lbl)
  trace : List PtrEvent

/-- Modelled from the spec: `Any::incShared()` (`Any.hpp` is not among the
sources), the increment of the shared count. -/
def PtrState.incShared (s : PtrState) (l : Lbl) : PtrState :=
  { root := s.root
    sharedCount := Function.update s.sharedCount l (s.sharedCount l + 1)
    destroyed := s.destroyed
    handles := s.handles
    trace := s.trace ++ [PtrEvent.incShared l] }

/-- Modelled from the spec: `Any::decShared()` (`Any.hpp` is not among the
sources), the decrement of the shared count, which destroys the object when
the count reaches zero. -/
def PtrState.decShared (s : PtrState) (l : Lbl) : PtrState :=
  { root := s.root
    sharedCount := Function.update s.sharedCount l (s.sharedCount l - 1)
    destroyed := Function.update s.destroyed l
      (s.destroyed l || decide (s.sharedCount l - 1 = 0))
    handles := s.handles
    trace := s.trace ++ [PtrEvent.decShared l] }

/-- Modelled from the spec: `Any::decSharedReachable()` (`Any.hpp` is not
among the sources), the "reachable" decrement that handles use in place of
the full decrement when the object stays reachable: it lowers the shared
count and never destroys.  It acts on the count that `incShared()` raises:
`LabelPtr::reach()` undoes with `incShared()` what `LabelPtr::mark()` did
with `decSharedReachable()`. -/
def PtrState.decSharedReachable (s : PtrState) (l : Lbl) : PtrState :=
  { root := s.root
    sharedCount := Function.update s.sharedCount l (s.sharedCount l - 1)
    destroyed := s.destroyed
    handles := s.handles
    trace := s.trace ++ [PtrEvent.decSharedReachable l] }

/-- The atomic `ptr.load()` of handle `i`. -/
def PtrState.load (s : PtrState) (i : Nat) : Option Lbl :=
  s.handles.getD i none

/-- The atomic `ptr.store(p)` of handle `i`; `ptr.exchange(p)` is a `load`
followed by this `store`. -/
def PtrState.store (s : PtrState) (i : Nat) (p : Option Lbl) : PtrState :=
  { root := s.root
    sharedCount := s.sharedCount
    destroyed := s.destroyed
    handles := s.handles.set i p
    trace := s.trace }

/-- The storage of a handle under construction, added after the existing
handles with the given initial pointer. -/
def PtrState.alloc (s : PtrState) (p : Option Lbl) : PtrState :=
  { root := s.root
    sharedCount := s.sharedCount
    destroyed := s.destroyed
    handles := s.handles ++ [p]
    trace := s.trace }

/-- The statement `if (ptr && ptr != root()) { ptr->incShared(); }`. -/
def PtrState.incIfCounted (s : PtrState) (ptr : Option Lbl) : PtrState :=
  match ptr with
  | some l => if l ≠ s.root then s.incShared l else s
  | none => s

/-- `LabelPtr::LabelPtr(Label* ptr)`: the new handle is the last one. -/
def LabelPtr.ctor (s : PtrState) (ptr : Option Lbl) : PtrState :=
  (s.alloc ptr).incIfCounted ptr

/-- `LabelPtr::LabelPtr(const LabelPtr& o)`: the new handle is the last
one. -/
def LabelPtr.ctorCopy (s : PtrState) (o : Nat) : PtrState :=
  let s1 := s.alloc none
  let ptr := s1.load o
  (s1.incIfCounted ptr).store s.handles.length ptr

/-- `LabelPtr::LabelPtr(LabelPtr&& o)`: the new handle is the last one. -/
def LabelPtr.ctorMove (s : PtrState) (o : Nat) : PtrState :=
  let s1 := s.alloc none
  let ptr := s1.load o
  (s1.store o none).store s.handles.length ptr

/-- `LabelPtr::release()` on handle `this`. -/
def LabelPtr.release (s : PtrState) (this : Nat) : PtrState :=
  let old := s.load this
  let s1 := s.store this none
  match old with
  | some l => if l ≠ s.root then s1.decShared l else s1
  | none => s1

/-- `LabelPtr::~LabelPtr()` on handle `this`. -/
def LabelPtr.dtor (s : PtrState) (this : Nat) : PtrState :=
  LabelPtr.release s this

/-- `LabelPtr::bitwiseFix()` on handle `this`. -/
def LabelPtr.bitwiseFix (s : PtrState) (this : Nat) : PtrState :=
  s.incIfCounted (s.load this)

/-- `LabelPtr::query()` on handle `this`. -/
def LabelPtr.query (s : PtrState) (this : Nat) : Bool :=
  (s.load this).isSome

/-- `LabelPtr::get()` on handle `this`. -/
def LabelPtr.get (s : PtrState) (this : Nat) : Option Lbl :=
  s.load this

/-- `LabelPtr::replace(Label* ptr)` on handle `this`. -/
def LabelPtr.replace (s : PtrState) (this : Nat) (ptr : Option Lbl) : PtrState :=
  let s1 := s.incIfCounted ptr
  let old := s1.load this
  let s2 := s1.store this ptr
  match old with
  | some l =>
    if l ≠ s.root then
      if ptr = some l then s2.decSharedReachable l else s2.decShared l
    else s2
  | none => s2

/-- `LabelPtr::operator=(const LabelPtr& o)` on handle `this`. -/
def LabelPtr.assignCopy (s : PtrState) (this o : Nat) : PtrState :=
  LabelPtr.replace s this (LabelPtr.get s o)

/-- `LabelPtr::operator=(LabelPtr&& o)` on handle `this`. -/
def LabelPtr.assignMove (s : PtrState) (this o : Nat) : PtrState :=
  let ptr := s.load o
  let s1 := s.store o none
  let old := s1.load this
  let s2 := s1.store this ptr
  match old with
  | some l =>
    if l ≠ s.root then
      if ptr = some l then s2.decSharedReachable l else s2.decShared l
    else s2
  | none => s2

/-- The operations of a handle that construct, assign, reset or destruct
it. -/
inductive PtrOp where
  | ctor (ptr : Option Lbl)
  | ctorCopy (o : Nat)
  | ctorMove (o : Nat)
  | assignCopy (this o : Nat)
  | assignMove (this o : Nat)
  | replace (this : Nat) (ptr : Option Lbl)
  | release (this : Nat)
  | dtor (this : Nat)
deriving DecidableEq, Repr

/-- The handles an operation names exist. -/
def PtrOp.valid (s : PtrState) : PtrOp → Prop
  | PtrOp.ctor _ => True
  | PtrOp.ctorCopy o => o < s.handles.length
  | PtrOp.ctorMove o => o < s.handles.length
  | PtrOp.assignCopy this o => this < s.handles.length ∧ o < s.handles.length
  | PtrOp.assignMove this o => this < s.handles.length ∧ o < s.handles.length
  | PtrOp.replace this _ => this < s.handles.length
  | PtrOp.release this => this < s.handles.length
  | PtrOp.dtor this => this < s.handles.length

/-- The state an operation leaves. -/
def PtrState.step (s : PtrState) : PtrOp → PtrState
  | PtrOp.ctor ptr => LabelPtr.ctor s ptr
  | PtrOp.ctorCopy o => LabelPtr.ctorCopy s o
  | PtrOp.ctorMove o => LabelPtr.ctorMove s o
  | PtrOp.assignCopy this o => LabelPtr.assignCopy s this o
  | PtrOp.assignMove this o => LabelPtr.assignMove s this o
  | PtrOp.replace this ptr => LabelPtr.replace s this ptr
  | PtrOp.release this => LabelPtr.release s this
  | PtrOp.dtor this => LabelPtr.dtor s this

/-- The number of handles that hold label `l`. -/
def PtrState.holders (s : PtrState) (l : Lbl) : Nat :=
  s.handles.count (some l)

/-- The handle-count invariant: the shared count of every label other than
the root equals the number of handles that hold it. -/
def PtrState.CountsMatch (s : PtrState) : Prop :=
  ∀ l, l ≠ s.root → s.sharedCount l = s.holders l

/-- A state with root label 0 and three handles: two on label 1, one on
label 2. -/
def exPtrState : PtrState where
  root := 0
  sharedCount l := if l = 1 then 2 else if l = 2 then 1 else 0
  destroyed _ := false
  handles := [some 1, some 2, some 1]
  trace := []

/-- A call forwarded to a label's own collector method (`mark()`, `scan()`,
`reach()`, `collect()`, which are in `Any.hpp` and not among the sources):
the call is recorded; what the label then does to the objects it owns is
outside what the handles see. -/
def PtrState.call (s : PtrState) (e : PtrEvent) : PtrState :=
  { root := s.root
    sharedCount := s.sharedCount
    destroyed := s.destroyed
    handles := s.handles
    trace := s.trace ++ [e] }

/-- `LabelPtr::mark()` on handle `this`. -/
def LabelPtr.mark (s : PtrState) (this : Nat) : PtrState :=
  match s.load this with
  | some o => if o ≠ s.root then (s.decSharedReachable o).call (PtrEvent.mark o) else s
  | none => s

/-- `LabelPtr::scan()` on handle `this`. -/
def LabelPtr.scan (s : PtrState) (this : Nat) : PtrState :=
  match s.load this with
  | some o => if o ≠ s.root then s.call (PtrEvent.scan o) else s
  | none => s

/-- `LabelPtr::reach()` on handle `this`. -/
def LabelPtr.reach (s : PtrState) (this : Nat) : PtrState :=
  match s.load this with
  | some o => if o ≠ s.root then (s.incShared o).call (PtrEvent.reach o) else s
  | none => s

/-- `LabelPtr::collect()` on handle `this`. -/
def LabelPtr.collect (s : PtrState) (this : Nat) : PtrState :=
  let o := s.load this
  let s1 := s.store this none
  match o with
  | some l => if l ≠ s.root then s1.call (PtrEvent.collect l) else s1
  | none => s1

/-- All the operations of a handle: those that construct, assign, reset or
destruct it, `bitwiseFix` and the four collector hooks. -/
inductive HandleOp where
  | basic (op : PtrOp)
  | bitwiseFix (this : Nat)
  | mark (this : Nat)
  | scan (this : Nat)
  | reach (this : Nat)
  | collect (this : Nat)
deriving DecidableEq, Repr

/-- The state a handle operation leaves. -/
def PtrState.apply (s : PtrState) : HandleOp → PtrState
  | HandleOp.basic op => s.step op
  | HandleOp.bitwiseFix this => LabelPtr.bitwiseFix s this
  | HandleOp.mark this => LabelPtr.mark s this
  | HandleOp.scan this => LabelPtr.scan s this
  | HandleOp.reach this => LabelPtr.reach s this
  | HandleOp.collect this => LabelPtr.collect s this

/-- The state a sequence of handle operations leaves. -/
def PtrState.run (s : PtrState) : List HandleOp → PtrState
  | [] => s
  | op :: ops => (s.apply op).run ops

/-- The label a call is made on. -/
def PtrEvent.label : PtrEvent → Lbl
  | PtrEvent.incShared l => l
  | PtrEvent.decShared l => l
  | PtrEvent.decSharedReachable l => l
  | PtrEvent.mark l => l
  | PtrEvent.scan l => l
  | PtrEvent.reach l => l
  | PtrEvent.collect l => l

/-- The calls made between state `s` and a later state `t`. -/
def PtrState.emitted (s t : PtrState) : List PtrEvent :=
  t.trace.drop s.trace.length

/-- A state with root label 0 and two handles: handle 0 holds the root,
handle 1 holds label 1. -/
def exRootState : PtrState where
  root := 0
  sharedCount l := if l = 1 then 1 else 0
  destroyed _ := false
  handles := [some 0, some 1]
  trace := []

/-- Between state `s` and a later state `t` the root label has been left
alone: `root()` is the same, the shared count and the destroyed flag of the
root are the same, and every call made in between is on another label. -/
def PtrState.RootUntouched (s t : PtrState) : Prop :=
  t.root = s.root ∧ t.sharedCount s.root = s.sharedCount s.root ∧
    t.destroyed s.root = s.destroyed s.root ∧
    ∃ tr, t.trace = s.trace ++ tr ∧ ∀ e ∈ tr, PtrEvent.label e ≠ s.root

/-! Termination of forwarding chains. -/

/-- Following `memo.get` under label `l` from object `o` reaches, after
finitely many steps, an object that is not frozen or a frozen object without
an entry. -/
inductive Heap.Stops (h : Heap) (l : Lbl) : Obj → Prop where
  | unfrozen (o : Obj) : h.isFrozen o = false → Heap.Stops h l o
  | missing (o : Obj) : h.isFrozen o = true → h.memoGet l o = none → Heap.Stops h l o
  | step (o m : Obj) : h.isFrozen o = true → h.memoGet l o = some m →
      Heap.Stops h l m → Heap.Stops h l o

/-- Every forwarding chain of label `l` is finite. -/
def Heap.ChainsEnd (h : Heap) (l : Lbl) : Prop :=
  ∀ o, h.Stops l o

/-- What the preservation of finite chains assumes of `copy` and `recycle`:
neither touches a label, `copy` leaves the frozen flag of every object other
than the one it returns, `recycle` that of every object other than its
receiver. -/
structure Virt.FlagsOk (v : Virt) : Prop where
  copyLabels : ∀ (h : Heap) (o : Obj) (l : Lbl), (v.copy h o l).1.label = h.label
  copyFlags : ∀ (h : Heap) (o : Obj) (l : Lbl) (x : Obj), x ≠ (v.copy h o l).2 →
    (v.copy h o l).1.isFrozen x = h.isFrozen x
  recycleLabels : ∀ (h : Heap) (o : Obj) (l : Lbl), (v.recycle h o l).label = h.label
  recycleFlags : ∀ (h : Heap) (o : Obj) (l : Lbl) (x : Obj), x ≠ o →
    (v.recycle h o l).isFrozen x = h.isFrozen x

/-- The copy of `n` made for label `l` is a fresh object: it is not `n`
itself and it is not yet a key of the memo of `l`. -/
def Virt.FreshCopy (v : Virt) (h : Heap) (l : Lbl) (n : Obj) : Prop :=
  (v.copy h n l).2 ≠ n ∧ h.memoGet l (v.copy h n l).2 = none

/-! Label copy construction (`Label.cpp`). -/

/-- Modelled from the spec: the reader/writer lock of a label (its class is
not among the sources): whether a writer holds it and how many readers hold
it. -/
structure Lock where
  writer : Bool
  readers : Nat
deriving DecidableEq, Repr

/-- Modelled from the spec: `setWrite()`, the acquisition in write mode. -/
def Lock.setWrite (k : Lock) : Lock :=
  { writer := true, readers := k.readers }

/-- Modelled from the spec: `downgrade()`, the transition from write mode to
read mode without releasing. -/
def Lock.downgrade (k : Lock) : Lock :=
  { writer := false, readers := k.readers + 1 }

/-- Modelled from the spec: `unsetRead()`, the release of read mode. -/
def Lock.unsetRead (k : Lock) : Lock :=
  { writer := k.writer, readers := k.readers - 1 }

/-- A label with its lock. -/
structure LockedLabel where
  lock : Lock
  state : Label
deriving DecidableEq, Repr

/-- The calls made by the copy constructor of `Label`. -/
inductive CtorCall where
  | setWrite
  | rehash
  | downgrade
  | copy
  | unsetRead
deriving DecidableEq, Repr

/-- What copy construction gives back: the source label and the new label
after it, and the calls made, each with the state the lock of the source was
in when the call was made. -/
structure Forked where
  source : LockedLabel
  made : LockedLabel
  trace : List (CtorCall × Lock)
deriving DecidableEq, Repr

/-- `Label::Label(const Label& o)`: the new label is first built by
`Label()`, not frozen, with an empty memo and a free lock; `rehash` is
`Memo::rehash()`, which is not among the sources, and `memo.copy(o1.memo)`
takes over the entries of the source. -/
def Label.ctorCopy (rehash : Memo → Memo) (o : LockedLabel) : Forked :=
  let k0 := o.lock
  let k1 := k0.setWrite
  let m1 := rehash o.state.memo
  let k2 := k1.downgrade
  let memo := m1
  let k3 := k2.unsetRead
  { source := { lock := k3, state := { frozen := o.state.frozen, memo := m1 } }
    made := { lock := { writer := false, readers := 0 }
              state := { frozen := false, memo := memo } }
    trace := [(CtorCall.setWrite, k0), (CtorCall.rehash, k1), (CtorCall.downgrade, k1),
      (CtorCall.copy, k2), (CtorCall.unsetRead, k2)] }

/-- A label with a free lock, frozen, whose memo maps 0 to 1. -/
def exLockedLabel : LockedLabel where
  lock := { writer := false, readers := 0 }
  state := { frozen := true, memo := [(0, 1)] }

/-! Weak copy-on-write pointers (`WeakCOW.hpp`). -/

/-- The members of `WeakCOW<Any>`: the weak reference `object` (null when
empty) and the context `memo`. -/
structure WeakCOW where
  object : Option Obj
  memo : Lbl
deriving DecidableEq, Repr

/-- A call made by `pull()`. -/
inductive PullCall where
  | forwardPull (memo : Lbl)
  | clonePull (object : Obj) (memo : Lbl)
deriving DecidableEq, Repr

/-- What `WeakCOW.hpp` uses and the sources do not contain, over a state
`σ` of the rest of the program: the value of the macro
`USE_LAZY_DEEP_CLONE`, `memo->forwardPull()`, which returns a context, and
`clone_pull(object, memo)`, which updates the reference `object` it is
given. -/
structure CloneEnv (σ : Type) where
  useLazyDeepClone : Bool
  forwardPull : σ → Lbl → σ × Lbl
  clonePull : σ → Obj → Lbl → σ × Option Obj

/-- What `pull()` gives back: the raw pointer returned, the pointer object
itself after the call, the state of the rest of the program and the calls
made, in order. -/
structure Pulled (σ : Type) where
  ret : Option Obj
  self : WeakCOW
  world : σ
  trace : List PullCall

/-- `WeakCOW<Any>::pull()`. -/
def WeakCOW.pull {σ : Type} (env : CloneEnv σ) (w : WeakCOW) (s : σ) : Pulled σ :=
  if env.useLazyDeepClone then
    match w.object with
    | some o =>
      let memo := (env.forwardPull s w.memo).2
      let s1 := (env.forwardPull s w.memo).1
      let object := (env.clonePull s1 o memo).2
      let s2 := (env.clonePull s1 o memo).1
      { ret := object
        self := { object := object, memo := memo }
        world := s2
        trace := [PullCall.forwardPull w.memo, PullCall.clonePull o memo] }
    | none => { ret := w.object, self := w, world := s, trace := [] }
  else
    { ret := w.object, self := w, world := s, trace := [] }

/-- `WeakCOW<Any>::pull() const`, which casts the constness away and calls
`pull()`. -/
def WeakCOW.pullConst {σ : Type} (env : CloneEnv σ) (w : WeakCOW) (s : σ) : Pulled σ :=
  WeakCOW.pull env w s

/-- A build without `USE_LAZY_DEEP_CLONE`, over a state that counts the
calls: `forwardPull()` would return the next context and `clone_pull` the
next object. -/
def exEagerEnv : CloneEnv Nat where
  useLazyDeepClone := false
  forwardPull s m := (s + 1, m + 1)
  clonePull s o _ := (s + 1, some (o + 1))

/-! Casts (`libbirch.hpp`). -/

/-- Identity of a class. -/
abbrev TypeId := Nat

/-- The classes of the program: the dynamic type of each object, and
`isA d t`, whether an object of dynamic type `d` can be viewed as a `t`
(`d` is `t` or derives from it), which is when `dynamic_cast` to `t*`
succeeds. -/
structure TypeEnv where
  dynType : Obj → TypeId
  isA : TypeId → TypeId → Bool

/-- Modelled from the spec: a pointer type of the library (the pointer
classes are not among the sources), holding its target, null when empty, and
the label it was resolved under. -/
structure Pointer where
  ptr : Option Obj
  label : Lbl
deriving DecidableEq, Repr

/-- The call `from.get()`. -/
def Pointer.get (p : Pointer) : Option Obj :=
  p.ptr

/-- The call `from.getLabel()`. -/
def Pointer.getLabel (p : Pointer) : Lbl :=
  p.label

/-- The cast `dynamic_cast<T*>(p)` of C++ on a raw pointer: null for a null
pointer and for an object that is not a `T`, never an exception. -/
def dynamicCast (env : TypeEnv) (t : TypeId) (p : Option Obj) : Option Obj :=
  match p with
  | some o => if env.isA (env.dynType o) t then some o else none
  | none => none

/-- Non-identity `cast<To>(from)` of a pointer, `t` being `To::value_type`;
the result is the `Optional<To>`, `none` for `nil`. -/
def cast (env : TypeEnv) (t : TypeId) (frm : Pointer) : Option Pointer :=
  match dynamicCast env t frm.get with
  | some ptr => some { ptr := some ptr, label := frm.getLabel }
  | none => none

/-- The overload `cast<To>(const Optional<From>& from)`. -/
def castOptional (env : TypeEnv) (t : TypeId) (frm : Option Pointer) : Option Pointer :=
  match frm with
  | some p => cast env t p
  | none => none

/-! Owning contexts. -/

/-- `LazyAny::getContext()` on object `o`: the label responsible for its
creation, null when it has none. -/
def Heap.getContext (h : Heap) (o : Obj) : Option Lbl :=
  h.context o

/-- The heap in which the owning contexts are `ctx` and everything else is
as in `h`. -/
def Heap.withContext (h : Heap) (ctx : Obj → Option Lbl) : Heap :=
  { top := h.top
    any := h.any
    label := h.label
    context := ctx }

/-! Names (`Name.cpp`). -/

/-- The class `Name`: its string and, when it has one, its location. -/
structure Name where
  name : String
  loc : Option Nat
deriving DecidableEq, Repr

/-- The call `a.compare(b)` of `std::string`: zero when the strings are
equal, negative when `a` comes first, positive otherwise. -/
def strCompare (a b : String) : Int :=
  if a = b then 0 else if a < b then -1 else 1

/-- `Name::operator<=`. -/
def Name.le (a o : Name) : Bool :=
  strCompare a.name o.name == 0

/-- `Name::operator==`. -/
def Name.eq (a o : Name) : Bool :=
  strCompare a.name o.name == 0

/-- `Name::operator!=`. -/
def Name.ne (a o : Name) : Bool :=
  !(Name.eq a o)

/-- `Name::operator<`. -/
def Name.lt (a o : Name) : Bool :=
  Name.le a o && Name.ne a o

/-- `Name::operator>`. -/
def Name.gt (a o : Name) : Bool :=
  !(Name.le a o)

/-- `Name::operator>=`. -/
def Name.ge (a o : Name) : Bool :=
  !(Name.lt a o)

/-! Overloaded dictionaries (`OverloadedDictionary.cpp`). -/

/-- A reference in the program text: its name, its location when it has
one, and its identity. -/
structure Reference where
  name : Name
  loc : Option Nat
  id : Nat
deriving DecidableEq, Repr

/-- A parameter, the declaration a reference resolves to: its name, its
location when it has one, and its identity. -/
structure Parameter where
  name : Name
  loc : Option Nat
  id : Nat
deriving DecidableEq, Repr

/-- The members of `OverloadedDictionary`: the parameters in the order they
were declared and the map from a name to the poset of the parameters of that
name, kept as a list of entries; `π` is the type of posets, which is not
among the sources. -/
structure OverloadedDictionary (π : Type) where
  ordered : List Parameter
  overloaded : List (String × π)

/-- The call `overloaded.find(key)`: the poset stored under `key`, if
any. -/
def overloadedFind {π : Type} : List (String × π) → String → Option π
  | [], _ => none
  | (k, p) :: rest, key => if k = key then some p else overloadedFind rest key

/-- The entry found under `key` holds `val` after the call made on it. -/
def overloadedStore {π : Type} : List (String × π) → String → π → List (String × π)
  | [], _, _ => []
  | (k, p) :: rest, key, val =>
    if k = key then (k, val) :: rest else (k, p) :: overloadedStore rest key val

/-- A piece of the message of an exception. -/
inductive MsgItem where
  | location (loc : Nat)
  | ambiguous (name : Name)
  | reference (ref : Reference)
  | note
  | candidate (p : Parameter)
deriving DecidableEq, Repr

/-- The class `UnresolvedReferenceException`, built from the reference (its
source is not among the sources). -/
structure UnresolvedReferenceException where
  ref : Reference
deriving DecidableEq, Repr

/-- The class `AmbiguousReferenceException`: the message it carries. -/
structure AmbiguousReferenceException where
  msg : List MsgItem
deriving DecidableEq, Repr

/-- The loop of the constructor over the matches: for each one its location
when it has one, the note and the candidate. -/
def candidateItems : List Parameter → List MsgItem
  | [] => []
  | p :: rest =>
    (match p.loc with
      | some loc => [MsgItem.location loc]
      | none => []) ++ [MsgItem.note, MsgItem.candidate p] ++ candidateItems rest

/-- `AmbiguousReferenceException::AmbiguousReferenceException(ref,
matches)`. -/
def AmbiguousReferenceException.ctor (ref : Reference) (mtch : List Parameter) :
    AmbiguousReferenceException :=
  { msg :=
      (match ref.loc with
        | some loc => [MsgItem.location loc]
        | none => []) ++
      [MsgItem.ambiguous ref.name, MsgItem.reference ref] ++ candidateItems mtch }

/-- The candidates a message names, in order. -/
def candidatesOf : List MsgItem → List Parameter
  | [] => []
  | MsgItem.candidate p :: rest => p :: candidatesOf rest
  | _ :: rest => candidatesOf rest

/-- How a call of `resolve` ends: it returns a parameter or throws one of
the two exceptions. -/
inductive Resolution where
  | returned (p : Parameter)
  | unresolved (e : UnresolvedReferenceException)
  | ambiguous (e : AmbiguousReferenceException)
deriving DecidableEq, Repr

/-- `OverloadedDictionary::resolve(ref)`: the dictionary after the call and
how the call ends.  `find` is the `find(ref, matches)` of the poset, which
is not among the sources: it gives the poset as the call leaves it and the
matches it has put in the list. -/
def OverloadedDictionary.resolve {π : Type} (find : π → Reference → π × List Parameter)
    (d : OverloadedDictionary π) (ref : Reference) :
    OverloadedDictionary π × Resolution :=
  match overloadedFind d.overloaded ref.name.name with
  | none => (d, Resolution.unresolved { ref := ref })
  | some poset =>
    let mtch := (find poset ref).2
    let d1 : OverloadedDictionary π :=
      { ordered := d.ordered
        overloaded := overloadedStore d.overloaded ref.name.name (find poset ref).1 }
    if h0 : mtch.length = 0 then
      (d1, Resolution.unresolved { ref := ref })
    else if mtch.length > 1 then
      (d1, Resolution.ambiguous (AmbiguousReferenceException.ctor ref mtch))
    else
      (d1, Resolution.returned (mtch.head (fun hnil => h0 (by rw [hnil]; rfl))))

/-- A poset kept as the list of its parameters, with the `find` that gives
the parameters whose identity is that of the reference or one more, and
leaves the poset as it is. -/
def exFind (poset : List Parameter) (ref : Reference) : List Parameter × List Parameter :=
  (poset, poset.filter (fun p => p.id == ref.id || p.id == ref.id + 1))

/-- A dictionary with two parameters named `f`, of identities 1 and 2, and
one named `g`, of identity 5. -/
def exDictionary : OverloadedDictionary (List Parameter) where
  ordered :=
    [{ name := { name := "f", loc := none }, loc := none, id := 1 },
     { name := { name := "f", loc := none }, loc := some 7, id := 2 },
     { name := { name := "g", loc := none }, loc := none, id := 5 }]
  overloaded :=
    [("f", [{ name := { name := "f", loc := none }, loc := none, id := 1 },
            { name := { name := "f", loc := none }, loc := some 7, id := 2 }]),
     ("g", [{ name := { name := "g", loc := none }, loc := none, id := 5 }])]

/-! Properties of labels. -/

theorem Walk.inv_start (h : Heap) (l : Lbl) (o : Obj) : (Walk.start h o).Inv h l := by
  constructor
  · intro n hn
    simp only [Walk.start, Option.some.injEq] at hn
    subst hn
    rfl
  · intro hn
    simp [Walk.start] at hn

theorem chainWalk_inv (h : Heap) (l : Lbl) :
    ∀ (fuel : Nat) (w w' : Walk), w.Inv h l → chainWalk h l fuel w = some w' →
      w'.Inv h l ∧ (w'.frozen = false ∨ w'.next = none) := by
  intro fuel
  induction fuel with
  | zero =>
    intro w w' hinv hw
    rcases w with ⟨prev, next, frozen, tr⟩
    cases frozen <;> cases next <;> simp [chainWalk] at hw <;> subst hw <;> simp [hinv]
  | succ fuel ih =>
    intro w w' hinv hw
    rcases w with ⟨prev, next, frozen, tr⟩
    cases frozen with
    | false =>
      simp only [chainWalk, Option.some.injEq] at hw
      subst hw
      exact ⟨hinv, Or.inl rfl⟩
    | true =>
      cases next with
      | none =>
        simp only [chainWalk, Option.some.injEq] at hw
        subst hw
        exact ⟨hinv, Or.inr rfl⟩
      | some n =>
        simp only [chainWalk] at hw
        refine ih _ w' ?_ hw
        have hfn : h.isFrozen n = true := (hinv.1 n rfl).symm
        constructor
        · intro m hm
          simp only at hm
          simp only [hm]
        · intro hm
          simp only at hm
          simp only [hm]
          exact ⟨trivial, n, rfl, hfn, hm⟩

theorem chainWalk_last (h : Heap) (l : Lbl) (fuel : Nat) (o : Obj) (w : Walk)
    (hw : chainWalk h l fuel (Walk.start h o) = some w) :
    ∃ n, w.last = some n ∧ h.isFrozen n = w.frozen ∧
      (w.frozen = true → h.memoGet l n = none) := by
  obtain ⟨hinv, hexit⟩ := chainWalk_inv h l fuel _ w (Walk.inv_start h l o) hw
  rcases w with ⟨prev, next, frozen, tr⟩
  cases next with
  | none =>
    obtain ⟨hf, p, hp, hpf, hpm⟩ := hinv.2 rfl
    simp only at hf hp
    subst hf hp
    exact ⟨p, rfl, hpf, fun _ => hpm⟩
  | some n =>
    have hf : frozen = false := by
      rcases hexit with hf | hn
      · exact hf
      · simp at hn
    subst hf
    refine ⟨n, rfl, (hinv.1 n rfl).symm, ?_⟩
    intro hc
    simp at hc

theorem Heap.isFrozen_thaw (h : Heap) (l : Lbl) (o : Obj) :
    (h.thaw l).isFrozen o = h.isFrozen o := rfl

theorem Heap.isFrozen_memoPut (h : Heap) (l : Lbl) (k c o : Obj) :
    (h.memoPut l k c).isFrozen o = h.isFrozen o := rfl

/-- C1: when `copy(C)` returns an object that is not frozen and `recycle(C)`
leaves its receiver not frozen, a `mapGet(o)` whose chain walk finishes
returns an object that is not frozen in the heap it leaves, on every path
(fast path, memo hit, recycle, copy). -/
theorem mapGet_ret_not_frozen (v : Virt) (fuel : Nat) (h : Heap) (l : Lbl) (o : Obj)
    (hcopy : ∀ (h : Heap) (o : Obj) (l : Lbl), (v.copy h o l).1.isFrozen (v.copy h o l).2 = false)
    (hrecycle : ∀ (h : Heap) (o : Obj) (l : Lbl), (v.recycle h o l).isFrozen o = false)
    (hfin : (chainWalk h l fuel (Walk.start h o)).isSome = true) :
    ∃ out, mapGet v fuel h l o = some out ∧ out.heap.isFrozen out.ret = false := by
  obtain ⟨w, hw⟩ := Option.isSome_iff_exists.mp hfin
  obtain ⟨n, hlast, hfz, -⟩ := chainWalk_last h l fuel o w hw
  unfold mapGet
  simp only [hw, hlast]
  cases hwf : w.frozen with
  | false =>
    rw [hwf] at hfz
    exact ⟨_, rfl, hfz⟩
  | true =>
    simp only [if_true]
    by_cases hu : h.isUnique n = true
    · simp only [hu, if_true]
      exact ⟨_, rfl, hrecycle h n l⟩
    · simp only [hu]
      by_cases hfu : (v.copy h n l).1.isFrozenUnique n = true
      · simp only [hfu]
        exact ⟨_, rfl, hcopy h n l⟩
      · simp only [hfu]
        refine ⟨_, rfl, ?_⟩
        simp only [Heap.isFrozen_memoPut, Heap.isFrozen_thaw]
        exact hcopy h n l

/-- Witness for C1 on the copy path: object 0 of `exHeap` under label 0. -/
theorem mapGet_ret_not_frozen_witness :
    ∃ out, mapGet stdVirt 1 exHeap 0 0 = some out ∧ out.heap.isFrozen out.ret = false :=
  mapGet_ret_not_frozen stdVirt 1 exHeap 0 0
    (by intro h o l; simp [stdVirt, Heap.isFrozen])
    (by intro h o l; simp [stdVirt, Heap.isFrozen])
    (by decide)

theorem chainWalk_done (h : Heap) (l : Lbl) (fuel : Nat) (w : Walk)
    (hw : w.frozen = false ∨ w.next = none) : chainWalk h l fuel w = some w := by
  rcases w with ⟨prev, next, frozen, tr⟩
  cases fuel <;> cases frozen <;> cases next <;> simp_all [chainWalk]

theorem chainWalk_step (h : Heap) (l : Lbl) (fuel : Nat) (p : Option Obj) (n : Obj)
    (tr : List Event) :
    chainWalk h l (fuel + 1) ⟨p, some n, true, tr⟩ =
      chainWalk h l fuel
        ⟨some n, h.memoGet l n,
          match h.memoGet l n with
          | some m => h.isFrozen m
          | none => true,
          tr ++ [Event.memoGet l n]⟩ := rfl

theorem Heap.memoGet_memoPut_same (h : Heap) (l : Lbl) (k c : Obj) :
    (h.memoPut l k c).memoGet l k = some c := by
  simp [Heap.memoGet, Heap.memoPut, Memo.put, Memo.get]

theorem Heap.memoGet_thaw (h : Heap) (l l' : Lbl) (k : Obj) :
    (h.thaw l).memoGet l' k = h.memoGet l' k := by
  by_cases hl : l' = l
  · subst hl
    simp [Heap.memoGet, Heap.thaw]
  · simp [Heap.memoGet, Heap.thaw, Function.update_noteq hl]

/-- C7: for an object `o` that is not frozen, `mapGet(o)` returns `o` itself
with any bound on the chain walk, makes no call at all (no memo lookup, no
copy, no recycle, no insertion) and leaves the heap, hence the memo of the
label, as it was. -/
theorem mapGet_fast_path (v : Virt) (fuel : Nat) (h : Heap) (l : Lbl) (o : Obj)
    (hnf : h.isFrozen o = false) :
    ∃ out, mapGet v fuel h l o = some out ∧ out.ret = o ∧ out.heap = h ∧
      out.trace = [] := by
  have hw : chainWalk h l fuel (Walk.start h o) = some (Walk.start h o) :=
    chainWalk_done h l fuel _ (Or.inl hnf)
  refine ⟨⟨o, h, []⟩, ?_, rfl, rfl, rfl⟩
  unfold mapGet
  rw [hw]
  simp [Walk.last, Walk.start, hnf]

/-- Witness for C7: object 2 of `exHeap`, which is not frozen. -/
theorem mapGet_fast_path_witness :
    exHeap.isFrozen 2 = false ∧
    ∃ out, mapGet stdVirt 0 exHeap 0 2 = some out ∧ out.ret = 2 ∧ out.heap = exHeap ∧
      out.trace = [] :=
  ⟨by decide, mapGet_fast_path stdVirt 0 exHeap 0 2 (by decide)⟩

/-- C3: for an object `o` that is frozen and uniquely owned and a label whose
memo is empty, `mapGet(o)` looks `o` up once, calls `recycle` on `o` and
nothing else (no copy, no insertion), returns `o` itself, allocates nothing,
leaves the memo empty and returns an object that is not frozen. -/
theorem mapGet_recycle_path (v : Virt) (hr : v.RecycleOk) (fuel : Nat) (h : Heap)
    (l : Lbl) (o : Obj) (hfz : h.isFrozen o = true) (hu : h.isUnique o = true)
    (hm : (h.label l).memo = []) :
    ∃ out, mapGet v (fuel + 1) h l o = some out ∧ out.ret = o ∧
      out.trace = [Event.memoGet l o, Event.recycle o l] ∧
      out.heap = v.recycle h o l ∧ out.heap.top = h.top ∧
      (out.heap.label l).memo = [] ∧ out.heap.isFrozen out.ret = false := by
  have hget : h.memoGet l o = none := by simp [Heap.memoGet, hm, Memo.get]
  have hw : chainWalk h l (fuel + 1) (Walk.start h o) =
      some ⟨some o, none, true, [Event.memoGet l o]⟩ := by
    simp only [Walk.start, hfz, chainWalk_step, hget]
    exact chainWalk_done h l fuel _ (Or.inr rfl)
  refine ⟨⟨o, v.recycle h o l, [Event.memoGet l o, Event.recycle o l]⟩, ?_, rfl, rfl, rfl,
    hr.top h o l, ?_, hr.unfrozen h o l⟩
  · unfold mapGet
    rw [hw]
    simp [Walk.last, hu]
  · simp only [hr.labels h o l, hm]

/-- C2: for an allocated object `o` that is frozen, not uniquely owned and not
frozen-unique, under a label whose memo has no entry for `o`, the first
`mapGet(o)` makes one copy `c`, newly allocated and different from `o`, and
records it; a second `mapGet(o)` on the same label returns that same `c`
after one memo lookup, without another copy and without changing the heap. -/
theorem mapGet_copy_then_memo_hit (v : Virt) (hc : v.CopyOk) (fuel : Nat) (h : Heap)
    (l : Lbl) (o : Obj) (hlive : h.live o = true) (hfz : h.isFrozen o = true)
    (hu : h.isUnique o = false) (hfu : h.isFrozenUnique o = false)
    (hm : h.memoGet l o = none) :
    ∃ out1 out2, mapGet v (fuel + 1) h l o = some out1 ∧
      out1.ret = (v.copy h o l).2 ∧ h.live out1.ret = false ∧ out1.ret ≠ o ∧
      out1.trace = [Event.memoGet l o, Event.copy o l, Event.thaw l,
        Event.memoPut l o out1.ret] ∧
      mapGet v (fuel + 1) out1.heap l o = some out2 ∧ out2.ret = out1.ret ∧
      out2.trace = [Event.memoGet l o] ∧ out2.heap = out1.heap := by
  have hw : chainWalk h l (fuel + 1) (Walk.start h o) =
      some ⟨some o, none, true, [Event.memoGet l o]⟩ := by
    simp only [Walk.start, hfz, chainWalk_step, hm]
    exact chainWalk_done h l fuel _ (Or.inr rfl)
  have hfu1 : (v.copy h o l).1.isFrozenUnique o = false := by
    simp only [Heap.isFrozenUnique, hc.source h o l hlive]
    exact hfu
  have hne : (v.copy h o l).2 ≠ o := by
    intro he
    have := hc.fresh h o l
    rw [he, hlive] at this
    exact Bool.noConfusion this
  have hfz3 : (((v.copy h o l).1.thaw l).memoPut l o (v.copy h o l).2).isFrozen o = true := by
    simp only [Heap.isFrozen_memoPut, Heap.isFrozen_thaw, (hc.keeps h o l o hlive).2.1]
    exact hfz
  have hfc3 : (((v.copy h o l).1.thaw l).memoPut l o (v.copy h o l).2).isFrozen
      (v.copy h o l).2 = false := by
    simp only [Heap.isFrozen_memoPut, Heap.isFrozen_thaw]
    exact hc.unfrozen h o l
  have hw2 : chainWalk (((v.copy h o l).1.thaw l).memoPut l o (v.copy h o l).2) l (fuel + 1)
      (Walk.start (((v.copy h o l).1.thaw l).memoPut l o (v.copy h o l).2) o) =
      some ⟨some o, some (v.copy h o l).2, false, [Event.memoGet l o]⟩ := by
    simp only [Walk.start, hfz3, chainWalk_step, Heap.memoGet_memoPut_same, hfc3]
    exact chainWalk_done _ l fuel _ (Or.inl rfl)
  refine ⟨⟨(v.copy h o l).2, ((v.copy h o l).1.thaw l).memoPut l o (v.copy h o l).2,
    [Event.memoGet l o, Event.copy o l, Event.thaw l, Event.memoPut l o (v.copy h o l).2]⟩,
    ⟨(v.copy h o l).2, ((v.copy h o l).1.thaw l).memoPut l o (v.copy h o l).2,
      [Event.memoGet l o]⟩, ?_, rfl, hc.fresh h o l, hne, rfl, ?_, rfl, rfl, rfl⟩
  · unfold mapGet
    rw [hw]
    simp [Walk.last, hu, hfu1]
  · unfold mapGet
    rw [hw2]
    simp [Walk.last]

theorem stdVirt_copyOk : stdVirt.CopyOk where
  fresh h o l := by simp [stdVirt, Heap.live]
  born h o l := by simp [stdVirt, Heap.live]
  unfrozen h o l := by simp [stdVirt, Heap.isFrozen]
  keeps h o l x hx := by
    have hlt : x < h.top := by simpa [Heap.live] using hx
    have hne : x ≠ h.top := Nat.ne_of_lt hlt
    refine ⟨?_, ?_, ?_⟩
    · simp only [stdVirt, Heap.live, decide_eq_true_eq]
      exact Nat.lt_succ_of_lt hlt
    · simp [stdVirt, Heap.isFrozen, Function.update_noteq hne]
    · simp [stdVirt, Heap.isFrozenUnique, Function.update_noteq hne]
  source h o l ho := by
    have hlt : o < h.top := by simpa [Heap.live] using ho
    have hne : o ≠ h.top := Nat.ne_of_lt hlt
    simp [stdVirt, Function.update_noteq hne]
  labels h o l := rfl

theorem stdVirt_recycleOk : stdVirt.RecycleOk where
  unfrozen h o l := by simp [stdVirt, Heap.isFrozen]
  keeps h o l x hx := by
    constructor
    · simp [stdVirt, Heap.isFrozen, Function.update_noteq hx]
    · simp [stdVirt, Heap.isFrozenUnique, Function.update_noteq hx]
  top h o l := rfl
  labels h o l := rfl

/-- Witness for C3: object 1 of `exHeap`, frozen with a single owner. -/
theorem mapGet_recycle_path_witness :
    ∃ out, mapGet stdVirt 1 exHeap 0 1 = some out ∧ out.ret = 1 ∧
      out.trace = [Event.memoGet 0 1, Event.recycle 1 0] ∧
      out.heap = stdVirt.recycle exHeap 1 0 ∧ out.heap.top = exHeap.top ∧
      (out.heap.label 0).memo = [] ∧ out.heap.isFrozen out.ret = false :=
  mapGet_recycle_path stdVirt stdVirt_recycleOk 0 exHeap 0 1 (by decide) (by decide)
    (by decide)

/-- Witness for C2: object 0 of `exHeap`, frozen with two owners. -/
theorem mapGet_copy_then_memo_hit_witness :
    ∃ out1 out2, mapGet stdVirt 1 exHeap 0 0 = some out1 ∧
      out1.ret = (stdVirt.copy exHeap 0 0).2 ∧ exHeap.live out1.ret = false ∧
      out1.ret ≠ 0 ∧
      out1.trace = [Event.memoGet 0 0, Event.copy 0 0, Event.thaw 0,
        Event.memoPut 0 0 out1.ret] ∧
      mapGet stdVirt 1 out1.heap 0 0 = some out2 ∧ out2.ret = out1.ret ∧
      out2.trace = [Event.memoGet 0 0] ∧ out2.heap = out1.heap :=
  mapGet_copy_then_memo_hit stdVirt stdVirt_copyOk 0 exHeap 0 0 (by decide) (by decide)
    (by decide) (by decide) (by decide)

/-- C8: `mapCopy(o)` calls `o->copy(C)` exactly once and returns its result,
looks nothing up in the memo, and calls `thaw()` and `memo.put(o, copy)`
exactly when `o->isFrozenUnique()` is false after the copy; the heap it
leaves is then the one `copy` left with the label thawed and the entry
recorded, and otherwise the one `copy` left, untouched. -/
theorem mapCopy_spec (v : Virt) (h : Heap) (l : Lbl) (o : Obj) :
    (mapCopy v h l o).ret = (v.copy h o l).2 ∧
    (mapCopy v h l o).trace.count (Event.copy o l) = 1 ∧
    (∀ x l', Event.copy x l' ∈ (mapCopy v h l o).trace ↔ (x = o ∧ l' = l)) ∧
    (∀ k l', Event.memoGet l' k ∉ (mapCopy v h l o).trace) ∧
    (∀ x l', Event.recycle x l' ∉ (mapCopy v h l o).trace) ∧
    (∀ l', Event.thaw l' ∈ (mapCopy v h l o).trace ↔
      (l' = l ∧ (v.copy h o l).1.isFrozenUnique o = false)) ∧
    (∀ l' k c, Event.memoPut l' k c ∈ (mapCopy v h l o).trace ↔
      (l' = l ∧ k = o ∧ c = (v.copy h o l).2 ∧
        (v.copy h o l).1.isFrozenUnique o = false)) ∧
    (mapCopy v h l o).heap =
      (if (v.copy h o l).1.isFrozenUnique o = false then
        ((v.copy h o l).1.thaw l).memoPut l o (v.copy h o l).2
      else (v.copy h o l).1) ∧
    ((v.copy h o l).1.isFrozenUnique o = false ↔
      ((mapCopy v h l o).heap.label l).memo =
        (o, (v.copy h o l).2) :: ((v.copy h o l).1.label l).memo) ∧
    ((v.copy h o l).1.isFrozenUnique o = true ↔
      ((mapCopy v h l o).heap.label l).memo = ((v.copy h o l).1.label l).memo) := by
  cases hfu : (v.copy h o l).1.isFrozenUnique o <;>
    simp [mapCopy, hfu, Heap.memoPut, Heap.thaw, Memo.put, eq_comm]

theorem chainWalk_trace (h : Heap) (l : Lbl) :
    ∀ (fuel : Nat) (w w' : Walk), chainWalk h l fuel w = some w' →
      ∀ e ∈ w'.trace, e ∈ w.trace ∨ ∃ k, e = Event.memoGet l k := by
  intro fuel
  induction fuel with
  | zero =>
    intro w w' hw e he
    rcases w with ⟨prev, next, frozen, tr⟩
    cases frozen <;> cases next <;> simp [chainWalk] at hw <;> subst hw <;> exact Or.inl he
  | succ fuel ih =>
    intro w w' hw e he
    rcases w with ⟨prev, next, frozen, tr⟩
    cases frozen with
    | false =>
      simp only [chainWalk, Option.some.injEq] at hw
      subst hw
      exact Or.inl he
    | true =>
      cases next with
      | none =>
        simp only [chainWalk, Option.some.injEq] at hw
        subst hw
        exact Or.inl he
      | some n =>
        rw [chainWalk_step] at hw
        rcases ih _ w' hw e he with h1 | h1
        · simp only [List.mem_append, List.mem_singleton] at h1
          rcases h1 with h1 | h1
          · exact Or.inl h1
          · exact Or.inr ⟨n, h1⟩
        · exact Or.inr h1

theorem chainWalk_start_trace (h : Heap) (l : Lbl) (fuel : Nat) (o : Obj) (w : Walk)
    (hw : chainWalk h l fuel (Walk.start h o) = some w) :
    ∀ e ∈ w.trace, ∃ k, e = Event.memoGet l k := by
  intro e he
  rcases chainWalk_trace h l fuel _ w hw e he with h1 | h1
  · simp [Walk.start] at h1
  · exact h1

theorem mapPull_frame_one (fuel : Nat) (h : Heap) (l : Lbl) (o : Obj)
    (hfin : (chainWalk h l fuel (Walk.start h o)).isSome = true) :
    ∃ out, mapPull fuel h l o = some out ∧ out.heap = h ∧
      ∀ e ∈ out.trace, ∃ k, e = Event.memoGet l k := by
  obtain ⟨w, hw⟩ := Option.isSome_iff_exists.mp hfin
  obtain ⟨n, hlast, -, -⟩ := chainWalk_last h l fuel o w hw
  refine ⟨⟨n, h, w.trace⟩, ?_, rfl, chainWalk_start_trace h l fuel o w hw⟩
  unfold mapPull
  rw [hw]
  simp only [hlast]

/-- C4: on the heap reached after any number `g` of `mapGet(o)` calls on a
label, any number `p` of successive `mapPull(o)` calls whose chain walk
finishes return, leave the whole heap (the memo of every label and the
header, hence the frozen flag, of every object) exactly as it was, and make
no call other than memo lookups: no copy, no recycle, no insertion, no
thaw. -/
theorem mapPull_frame (v : Virt) (fuel g p : Nat) (h0 hg : Heap) (l : Lbl) (o : Obj)
    (_hget : mapGetTimes v fuel l o g h0 = some hg)
    (hfin : (chainWalk hg l fuel (Walk.start hg o)).isSome = true) :
    ∃ tr, mapPullTimes fuel l o p hg = some (hg, tr) ∧
      ∀ e ∈ tr, ∃ k, e = Event.memoGet l k := by
  induction p with
  | zero => exact ⟨[], rfl, by simp⟩
  | succ p ih =>
    obtain ⟨out, hout, hheap, htr⟩ := mapPull_frame_one fuel hg l o hfin
    obtain ⟨tr, hrun, htr2⟩ := ih
    refine ⟨out.trace ++ tr, ?_, ?_⟩
    · simp only [mapPullTimes, hout, hheap, hrun]
    · intro e he
      rcases List.mem_append.mp he with h1 | h1
      · exact htr e h1
      · exact htr2 e h1

/-- Witness for C4: two `mapGet(0)` calls on `exHeap`, then three
`mapPull(0)` calls. -/
theorem mapPull_frame_witness :
    ∃ tr, mapPullTimes 1 0 0 3
        (((stdVirt.copy exHeap 0 0).1.thaw 0).memoPut 0 0 (stdVirt.copy exHeap 0 0).2) =
        some ((((stdVirt.copy exHeap 0 0).1.thaw 0).memoPut 0 0 (stdVirt.copy exHeap 0 0).2),
          tr) ∧
      ∀ e ∈ tr, ∃ k, e = Event.memoGet 0 k :=
  mapPull_frame stdVirt 1 2 3 exHeap
    (((stdVirt.copy exHeap 0 0).1.thaw 0).memoPut 0 0 (stdVirt.copy exHeap 0 0).2) 0 0
    (by rfl) (by decide)

theorem Heap.label_thaw_memoPut_same (h : Heap) (l : Lbl) (k c : Obj) :
    (((h.thaw l).memoPut l k c).label l).memo = (k, c) :: (h.label l).memo := by
  simp [Heap.memoPut, Heap.thaw, Memo.put]

theorem Heap.label_thaw_memoPut_other (h : Heap) (l l' : Lbl) (k c : Obj) (hl : l' ≠ l) :
    ((h.thaw l).memoPut l k c).label l' = h.label l' := by
  simp [Heap.memoPut, Heap.thaw, Function.update_noteq hl]

/-- The copy path of `mapGet` with insertion: an allocated object that is
frozen, not uniquely owned, not frozen-unique and without a memo entry is
copied, the label is thawed and the copy is recorded. -/
theorem mapGet_copy_insert (v : Virt) (hc : v.CopyOk) (fuel : Nat) (h : Heap)
    (l : Lbl) (o : Obj) (hlive : h.live o = true) (hfz : h.isFrozen o = true)
    (hu : h.isUnique o = false) (hfu : h.isFrozenUnique o = false)
    (hm : h.memoGet l o = none) :
    mapGet v (fuel + 1) h l o =
      some ⟨(v.copy h o l).2, ((v.copy h o l).1.thaw l).memoPut l o (v.copy h o l).2,
        [Event.memoGet l o, Event.copy o l, Event.thaw l,
          Event.memoPut l o (v.copy h o l).2]⟩ := by
  have hw : chainWalk h l (fuel + 1) (Walk.start h o) =
      some ⟨some o, none, true, [Event.memoGet l o]⟩ := by
    simp only [Walk.start, hfz, chainWalk_step, hm]
    exact chainWalk_done h l fuel _ (Or.inr rfl)
  have hfu1 : (v.copy h o l).1.isFrozenUnique o = false := by
    simp only [Heap.isFrozenUnique, hc.source h o l hlive]
    exact hfu
  unfold mapGet
  rw [hw]
  simp [Walk.last, hu, hfu1]

/-- C5 (as amended): for an allocated object `A` that is frozen with shared
count 2 and not frozen-unique, and two distinct labels `C1`, `C2` with empty
memos, `C1.mapGet(A)` returns a copy `A1` and leaves `memo(C1)` exactly
`{A -> A1}`, then `C2.mapGet(A)` returns a copy `A2` and leaves `memo(C2)`
exactly `{A -> A2}` and `memo(C1)` as it was; `A1`, `A2` and `A` are pairwise
distinct and `A` is still frozen. -/
theorem mapGet_two_labels (v : Virt) (hc : v.CopyOk) (fuel : Nat) (h : Heap)
    (c1 c2 : Lbl) (a : Obj) (hne : c1 ≠ c2) (hlive : h.live a = true)
    (hfz : h.isFrozen a = true) (hcnt : (h.any a).sharedCount = 2)
    (hfu : h.isFrozenUnique a = false)
    (hm1 : (h.label c1).memo = []) (hm2 : (h.label c2).memo = []) :
    ∃ out1 out2, mapGet v (fuel + 1) h c1 a = some out1 ∧
      mapGet v (fuel + 1) out1.heap c2 a = some out2 ∧
      out1.ret = (v.copy h a c1).2 ∧ out2.ret = (v.copy out1.heap a c2).2 ∧
      Event.copy a c1 ∈ out1.trace ∧ Event.copy a c2 ∈ out2.trace ∧
      (out1.heap.label c1).memo = [(a, out1.ret)] ∧
      (out2.heap.label c1).memo = [(a, out1.ret)] ∧
      (out2.heap.label c2).memo = [(a, out2.ret)] ∧
      out1.ret ≠ a ∧ out2.ret ≠ a ∧ out1.ret ≠ out2.ret ∧
      out2.heap.isFrozen a = true := by
  have hu : h.isUnique a = false := by simp [Heap.isUnique, hcnt]
  have hg1 : h.memoGet c1 a = none := by simp [Heap.memoGet, hm1, Memo.get]
  have h1 := mapGet_copy_insert v hc fuel h c1 a hlive hfz hu hfu hg1
  -- the heap after the first call
  generalize hh3 : ((v.copy h a c1).1.thaw c1).memoPut c1 a (v.copy h a c1).2 = h3 at h1
  have h3any : h3.any = (v.copy h a c1).1.any := by subst hh3; rfl
  have h3top : h3.top = (v.copy h a c1).1.top := by subst hh3; rfl
  have hk := hc.keeps h a c1 a hlive
  have hsrc := hc.source h a c1 hlive
  have hlive3 : h3.live a = true := by
    simp only [Heap.live, h3top]
    exact hk.1
  have hfz3 : h3.isFrozen a = true := by
    simp only [Heap.isFrozen, h3any, hsrc]
    exact hfz
  have hu3 : h3.isUnique a = false := by
    simp only [Heap.isUnique, h3any, hsrc]
    exact hu
  have hfu3 : h3.isFrozenUnique a = false := by
    simp only [Heap.isFrozenUnique, h3any, hsrc]
    exact hfu
  have hl31 : (h3.label c1).memo = [(a, (v.copy h a c1).2)] := by
    subst hh3
    rw [Heap.label_thaw_memoPut_same, hc.labels, hm1]
  have hl32 : (h3.label c2).memo = [] := by
    subst hh3
    rw [Heap.label_thaw_memoPut_other _ _ _ _ _ hne.symm, hc.labels, hm2]
  have hg2 : h3.memoGet c2 a = none := by simp [Heap.memoGet, hl32, Memo.get]
  have h2 := mapGet_copy_insert v hc fuel h3 c2 a hlive3 hfz3 hu3 hfu3 hg2
  have hA1live : h3.live (v.copy h a c1).2 = true := by
    simp only [Heap.live, h3top]
    exact hc.born h a c1
  have hA1 : (v.copy h a c1).2 ≠ a := by
    intro he
    have := hc.fresh h a c1
    rw [he, hlive] at this
    exact Bool.noConfusion this
  have hA2 : (v.copy h3 a c2).2 ≠ a := by
    intro he
    have := hc.fresh h3 a c2
    rw [he, hlive3] at this
    exact Bool.noConfusion this
  have hA12 : (v.copy h a c1).2 ≠ (v.copy h3 a c2).2 := by
    intro he
    have := hc.fresh h3 a c2
    rw [← he, hA1live] at this
    exact Bool.noConfusion this
  refine ⟨_, _, h1, h2, rfl, rfl, by simp, by simp, hl31, ?_, ?_, hA1, hA2, hA12, ?_⟩
  · show ((((v.copy h3 a c2).1.thaw c2).memoPut c2 a (v.copy h3 a c2).2).label c1).memo = _
    rw [Heap.label_thaw_memoPut_other _ _ _ _ _ hne, hc.labels, hl31]
  · show ((((v.copy h3 a c2).1.thaw c2).memoPut c2 a (v.copy h3 a c2).2).label c2).memo = _
    rw [Heap.label_thaw_memoPut_same, hc.labels, hl32]
  · show (((v.copy h3 a c2).1.thaw c2).memoPut c2 a (v.copy h3 a c2).2).isFrozen a = true
    simp only [Heap.isFrozen_memoPut, Heap.isFrozen_thaw, (hc.keeps h3 a c2 a hlive3).2.1]
    exact hfz3

/-- Witness for C5 (as amended): object 0 of `exHeap` under labels 0 and 1. -/
theorem mapGet_two_labels_witness :
    ∃ out1 out2, mapGet stdVirt 1 exHeap 0 0 = some out1 ∧
      mapGet stdVirt 1 out1.heap 1 0 = some out2 ∧
      out1.ret = (stdVirt.copy exHeap 0 0).2 ∧
      out2.ret = (stdVirt.copy out1.heap 0 1).2 ∧
      Event.copy 0 0 ∈ out1.trace ∧ Event.copy 0 1 ∈ out2.trace ∧
      (out1.heap.label 0).memo = [(0, out1.ret)] ∧
      (out2.heap.label 0).memo = [(0, out1.ret)] ∧
      (out2.heap.label 1).memo = [(0, out2.ret)] ∧
      out1.ret ≠ 0 ∧ out2.ret ≠ 0 ∧ out1.ret ≠ out2.ret ∧
      out2.heap.isFrozen 0 = true :=
  mapGet_two_labels stdVirt stdVirt_copyOk 0 exHeap 0 1 0 (by decide) (by decide)
    (by decide) (by decide) (by decide) (by decide) (by decide)

/-- C5 fails as stated: object 3 of `exHeap` is frozen with shared count 2,
labels 0 and 1 have empty memos, and `mapGet(3)` under label 0 returns a copy
yet leaves the memo of label 0 empty, because object 3 is frozen-unique. -/
theorem mapGet_two_labels_counterexample :
    exHeap.isFrozen 3 = true ∧ (exHeap.any 3).sharedCount = 2 ∧
    (exHeap.label 0).memo = [] ∧ (exHeap.label 1).memo = [] ∧
    ∃ out, mapGet stdVirt 1 exHeap 0 3 = some out ∧
      out.trace = [Event.memoGet 0 3, Event.copy 3 0] ∧
      (out.heap.label 0).memo = [] ∧ (out.heap.label 0).memo ≠ [(3, out.ret)] :=
  ⟨by decide, by decide, by decide, by decide, _, rfl, by decide, by decide, by decide⟩

/-- The four ways a `mapGet` can end, with the object `n` the chain walk
stopped on and the lookups `tr` it made. -/
theorem mapGet_cases (v : Virt) (fuel : Nat) (h : Heap) (l : Lbl) (x : Obj) (out : Out)
    (hout : mapGet v fuel h l x = some out) :
    ∃ n tr, (∀ e ∈ tr, ∃ k, e = Event.memoGet l k) ∧
      ((h.isFrozen n = false ∧ out.ret = n ∧ out.heap = h ∧ out.trace = tr) ∨
       (h.isFrozen n = true ∧ h.memoGet l n = none ∧ h.isUnique n = true ∧
          out.ret = n ∧ out.heap = v.recycle h n l ∧
          out.trace = tr ++ [Event.recycle n l]) ∨
       (h.isFrozen n = true ∧ h.memoGet l n = none ∧ h.isUnique n = false ∧
          (v.copy h n l).1.isFrozenUnique n = false ∧ out.ret = (v.copy h n l).2 ∧
          out.heap = ((v.copy h n l).1.thaw l).memoPut l n (v.copy h n l).2 ∧
          out.trace = tr ++ [Event.copy n l, Event.thaw l,
            Event.memoPut l n (v.copy h n l).2]) ∨
       (h.isFrozen n = true ∧ h.memoGet l n = none ∧ h.isUnique n = false ∧
          (v.copy h n l).1.isFrozenUnique n = true ∧ out.ret = (v.copy h n l).2 ∧
          out.heap = (v.copy h n l).1 ∧ out.trace = tr ++ [Event.copy n l])) := by
  unfold mapGet at hout
  cases hw : chainWalk h l fuel (Walk.start h x) with
  | none => simp [hw] at hout
  | some w =>
    obtain ⟨n, hlast, hfz, hmiss⟩ := chainWalk_last h l fuel x w hw
    have htr := chainWalk_start_trace h l fuel x w hw
    simp only [hw, hlast] at hout
    refine ⟨n, w.trace, htr, ?_⟩
    cases hwf : w.frozen with
    | false =>
      rw [hwf] at hfz
      simp only [hwf, Bool.false_eq_true, if_false, Option.some.injEq] at hout
      subst hout
      exact Or.inl ⟨hfz, rfl, rfl, rfl⟩
    | true =>
      rw [hwf] at hfz
      have hmiss := hmiss hwf
      simp only [hwf, if_true] at hout
      cases hu : h.isUnique n with
      | true =>
        simp only [hu, if_true, Option.some.injEq] at hout
        subst hout
        exact Or.inr (Or.inl ⟨hfz, hmiss, rfl, rfl, rfl, rfl⟩)
      | false =>
        simp only [hu, Bool.false_eq_true, if_false] at hout
        cases hfu : (v.copy h n l).1.isFrozenUnique n with
        | false =>
          simp only [hfu, Bool.not_false, if_true, Option.some.injEq] at hout
          subst hout
          exact Or.inr (Or.inr (Or.inl ⟨hfz, hmiss, rfl, rfl, rfl, rfl, rfl⟩))
        | true =>
          simp only [hfu, Bool.not_true, Bool.false_eq_true, if_false,
            Option.some.injEq] at hout
          subst hout
          exact Or.inr (Or.inr (Or.inr ⟨hfz, hmiss, rfl, rfl, rfl, rfl, rfl⟩))

theorem PtrState.load_eq (s : PtrState) (i : Nat) (hi : i < s.handles.length) :
    s.load i = s.handles[i] := by
  simp [PtrState.load, List.getD_eq_getElem?_getD, List.getElem?_eq_getElem hi]

theorem PtrState.holders_store (s : PtrState) (i : Nat) (p : Option Lbl) (l : Lbl)
    (hi : i < s.handles.length) :
    (s.store i p).holders l =
      s.holders l - (if s.load i = some l then 1 else 0) + (if p = some l then 1 else 0) := by
  simp only [PtrState.holders, PtrState.store, List.count_set _ _ _ _ hi, s.load_eq i hi,
    beq_iff_eq]

theorem PtrState.holders_pos (s : PtrState) (i : Nat) (l : Lbl)
    (hl : s.load i = some l) : 1 ≤ s.holders l := by
  have hi : i < s.handles.length := by
    by_contra hge
    simp [PtrState.load, List.getD_eq_getElem?_getD,
      List.getElem?_eq_none (Nat.le_of_not_lt hge)] at hl
  rw [s.load_eq i hi] at hl
  have hmem : some l ∈ s.handles := by
    rw [← hl]
    exact List.getElem_mem hi
  exact List.count_pos_iff.mpr hmem

theorem PtrState.holders_alloc (s : PtrState) (p : Option Lbl) (l : Lbl) :
    (s.alloc p).holders l = s.holders l + (if p = some l then 1 else 0) := by
  simp [PtrState.holders, PtrState.alloc, List.count_singleton]

theorem PtrState.load_alloc (s : PtrState) (p : Option Lbl) (i : Nat)
    (hi : i < s.handles.length) : (s.alloc p).load i = s.load i := by
  simp [PtrState.load, PtrState.alloc, List.getD_eq_getElem?_getD,
    List.getElem?_append_left hi]

theorem PtrState.load_store_same (s : PtrState) (i : Nat) (p : Option Lbl)
    (hi : i < s.handles.length) : (s.store i p).load i = p := by
  simp [PtrState.load, PtrState.store, List.getD_eq_getElem?_getD, hi]

theorem PtrState.load_store_ne (s : PtrState) (i j : Nat) (p : Option Lbl) (hij : i ≠ j) :
    (s.store i p).load j = s.load j := by
  simp [PtrState.load, PtrState.store, List.getD_eq_getElem?_getD,
    List.getElem?_set_ne hij]

@[simp] theorem PtrState.root_incShared (s : PtrState) (l : Lbl) :
    (s.incShared l).root = s.root := rfl

@[simp] theorem PtrState.root_decShared (s : PtrState) (l : Lbl) :
    (s.decShared l).root = s.root := rfl

@[simp] theorem PtrState.root_decSharedReachable (s : PtrState) (l : Lbl) :
    (s.decSharedReachable l).root = s.root := rfl

@[simp] theorem PtrState.root_store (s : PtrState) (i : Nat) (p : Option Lbl) :
    (s.store i p).root = s.root := rfl

@[simp] theorem PtrState.root_alloc (s : PtrState) (p : Option Lbl) :
    (s.alloc p).root = s.root := rfl

@[simp] theorem PtrState.root_incIfCounted (s : PtrState) (p : Option Lbl) :
    (s.incIfCounted p).root = s.root := by
  unfold PtrState.incIfCounted
  split
  · split <;> rfl
  · rfl

@[simp] theorem PtrState.handles_incShared (s : PtrState) (l : Lbl) :
    (s.incShared l).handles = s.handles := rfl

@[simp] theorem PtrState.handles_decShared (s : PtrState) (l : Lbl) :
    (s.decShared l).handles = s.handles := rfl

@[simp] theorem PtrState.handles_decSharedReachable (s : PtrState) (l : Lbl) :
    (s.decSharedReachable l).handles = s.handles := rfl

@[simp] theorem PtrState.handles_incIfCounted (s : PtrState) (p : Option Lbl) :
    (s.incIfCounted p).handles = s.handles := by
  unfold PtrState.incIfCounted
  split
  · split <;> rfl
  · rfl

@[simp] theorem PtrState.holders_incShared (s : PtrState) (a l : Lbl) :
    (s.incShared a).holders l = s.holders l := rfl

@[simp] theorem PtrState.holders_decShared (s : PtrState) (a l : Lbl) :
    (s.decShared a).holders l = s.holders l := rfl

@[simp] theorem PtrState.holders_decSharedReachable (s : PtrState) (a l : Lbl) :
    (s.decSharedReachable a).holders l = s.holders l := rfl

theorem PtrState.holders_congr (s t : PtrState) (l : Lbl) (h : t.handles = s.handles) :
    t.holders l = s.holders l := by
  simp only [PtrState.holders, h]

theorem PtrState.load_congr (s t : PtrState) (i : Nat) (h : t.handles = s.handles) :
    t.load i = s.load i := by
  simp only [PtrState.load, h]

@[simp] theorem PtrState.sharedCount_incShared (s : PtrState) (l l' : Lbl) :
    (s.incShared l).sharedCount l' =
      if l' = l then s.sharedCount l + 1 else s.sharedCount l' := by
  simp [PtrState.incShared, Function.update_apply]

@[simp] theorem PtrState.sharedCount_decShared (s : PtrState) (l l' : Lbl) :
    (s.decShared l).sharedCount l' =
      if l' = l then s.sharedCount l - 1 else s.sharedCount l' := by
  simp [PtrState.decShared, Function.update_apply]

@[simp] theorem PtrState.sharedCount_decSharedReachable (s : PtrState) (l l' : Lbl) :
    (s.decSharedReachable l).sharedCount l' =
      if l' = l then s.sharedCount l - 1 else s.sharedCount l' := by
  simp [PtrState.decSharedReachable, Function.update_apply]

@[simp] theorem PtrState.sharedCount_store (s : PtrState) (i : Nat) (p : Option Lbl) :
    (s.store i p).sharedCount = s.sharedCount := rfl

@[simp] theorem PtrState.sharedCount_alloc (s : PtrState) (p : Option Lbl) :
    (s.alloc p).sharedCount = s.sharedCount := rfl

theorem PtrState.sharedCount_incIfCounted (s : PtrState) (p : Option Lbl) (l : Lbl)
    (hl : l ≠ s.root) :
    (s.incIfCounted p).sharedCount l =
      s.sharedCount l + (if p = some l then 1 else 0) := by
  unfold PtrState.incIfCounted
  cases p with
  | none => simp
  | some a =>
    by_cases ha : a = s.root
    · have hne : a ≠ l := fun h => hl (h ▸ ha)
      simp [ha, hne]
      intro h
      exact absurd h.symm hl
    · by_cases hal : a = l
      · subst hal
        simp [ha]
      · have hla : l ≠ a := fun h => hal h.symm
        simp [ha, hal, hla]

/-- The handle-count invariant is kept by `replace`. -/
theorem LabelPtr.replace_countsMatch (s : PtrState) (this : Nat) (ptr : Option Lbl)
    (hinv : s.CountsMatch) (hthis : this < s.handles.length) :
    (LabelPtr.replace s this ptr).CountsMatch := by
  have hroot : (LabelPtr.replace s this ptr).root = s.root := by
    unfold LabelPtr.replace
    simp only
    split
    · split
      · split <;> simp
      · simp
    · simp
  intro l hl
  rw [hroot] at hl
  have h0 := hinv l hl
  have hlen : this < (s.incIfCounted ptr).handles.length := by simpa using hthis
  have hst := PtrState.holders_store (s.incIfCounted ptr) this ptr l hlen
  have hld : (s.incIfCounted ptr).load this = s.load this :=
    PtrState.load_congr s _ this (by simp)
  have hho : (s.incIfCounted ptr).holders l = s.holders l :=
    PtrState.holders_congr s _ l (by simp)
  have hsc := PtrState.sharedCount_incIfCounted s ptr l hl
  rw [hld, hho] at hst
  unfold LabelPtr.replace
  simp only [hld]
  cases hold : s.load this with
  | none =>
    simp only [hold] at hst ⊢
    simp only [PtrState.sharedCount_store, hsc, hst, h0]
    simp
  | some a =>
    have hpos := s.holders_pos this a hold
    simp only [hold] at hst ⊢
    by_cases ha : a = s.root
    · have hal : a ≠ l := fun h => hl (h ▸ ha)
      simp only [ha, ne_eq, not_true_eq_false, if_false]
      simp only [PtrState.sharedCount_store, hsc, h0]
      rw [hst]
      have : ¬ (some a = some l) := by simpa using hal
      simp [this]
    · simp only [ne_eq, ha, not_false_eq_true, if_true]
      by_cases hp : ptr = some a
      · simp only [hp, if_true]
        subst hp
        by_cases hal : l = a
        · subst hal
          simp only [PtrState.sharedCount_decSharedReachable, if_true,
            PtrState.sharedCount_store, hsc]
          rw [PtrState.holders_decSharedReachable, hst]
          simp
          omega
        · have hal' : ¬ (some a = some l) := by
            intro h
            exact hal (Option.some.inj h).symm
          simp only [PtrState.sharedCount_decSharedReachable, hal, if_false,
            PtrState.sharedCount_store, hsc]
          rw [PtrState.holders_decSharedReachable, hst]
          simp [hal']
          omega
      · simp only [hp, if_false]
        by_cases hal : l = a
        · subst hal
          simp only [PtrState.sharedCount_decShared, if_true,
            PtrState.sharedCount_store, hsc]
          rw [PtrState.holders_decShared, hst]
          simp [hp]
          omega
        · have hal' : ¬ (some a = some l) := by
            intro h
            exact hal (Option.some.inj h).symm
          simp only [PtrState.sharedCount_decShared, hal, if_false,
            PtrState.sharedCount_store, hsc]
          rw [PtrState.holders_decShared, hst]
          simp [hal']
          omega

@[simp] theorem PtrState.handles_length_alloc (s : PtrState) (p : Option Lbl) :
    (s.alloc p).handles.length = s.handles.length + 1 := by
  simp [PtrState.alloc]

@[simp] theorem PtrState.handles_length_store (s : PtrState) (i : Nat) (p : Option Lbl) :
    (s.store i p).handles.length = s.handles.length := by
  simp [PtrState.store]

theorem PtrState.load_alloc_new (s : PtrState) (p : Option Lbl) :
    (s.alloc p).load s.handles.length = p := by
  simp [PtrState.load, PtrState.alloc, List.getD_eq_getElem?_getD]

/-- The handle-count invariant is kept by construction from a raw pointer. -/
theorem LabelPtr.ctor_countsMatch (s : PtrState) (ptr : Option Lbl) (hinv : s.CountsMatch) :
    (LabelPtr.ctor s ptr).CountsMatch := by
  intro l hl
  have hl' : l ≠ s.root := by simpa [LabelPtr.ctor] using hl
  have h0 := hinv l hl'
  unfold LabelPtr.ctor
  rw [PtrState.sharedCount_incIfCounted _ _ _ (show l ≠ (s.alloc ptr).root from hl'),
    PtrState.holders_congr (s.alloc ptr) _ l (PtrState.handles_incIfCounted _ _),
    PtrState.holders_alloc]
  simp only [PtrState.sharedCount_alloc, h0]

/-- The handle-count invariant is kept by copy construction. -/
theorem LabelPtr.ctorCopy_countsMatch (s : PtrState) (o : Nat) (hinv : s.CountsMatch)
    (ho : o < s.handles.length) : (LabelPtr.ctorCopy s o).CountsMatch := by
  intro l hl
  have hl' : l ≠ s.root := by simpa [LabelPtr.ctorCopy] using hl
  have h0 := hinv l hl'
  have hld : (s.alloc none).load o = s.load o := s.load_alloc none o ho
  unfold LabelPtr.ctorCopy
  dsimp only
  rw [hld]
  have hlen : s.handles.length < ((s.alloc none).incIfCounted (s.load o)).handles.length := by
    simp
  rw [PtrState.holders_store _ _ _ _ hlen,
    PtrState.load_congr (s.alloc none) _ _ (PtrState.handles_incIfCounted _ _),
    PtrState.load_alloc_new,
    PtrState.holders_congr (s.alloc none) _ l (PtrState.handles_incIfCounted _ _),
    PtrState.holders_alloc]
  simp only [PtrState.sharedCount_store,
    PtrState.sharedCount_incIfCounted _ _ _ (show l ≠ (s.alloc none).root from hl'),
    PtrState.sharedCount_alloc, h0]
  simp

/-- The handle-count invariant is kept by move construction. -/
theorem LabelPtr.ctorMove_countsMatch (s : PtrState) (o : Nat) (hinv : s.CountsMatch)
    (ho : o < s.handles.length) : (LabelPtr.ctorMove s o).CountsMatch := by
  intro l hl
  have hl' : l ≠ s.root := by simpa [LabelPtr.ctorMove] using hl
  have h0 := hinv l hl'
  have hld : (s.alloc none).load o = s.load o := s.load_alloc none o ho
  have hne : o ≠ s.handles.length := Nat.ne_of_lt ho
  unfold LabelPtr.ctorMove
  dsimp only
  rw [hld]
  have hlen1 : o < (s.alloc none).handles.length := by
    simp only [PtrState.handles_length_alloc]
    exact Nat.lt_succ_of_lt ho
  have hlen2 : s.handles.length < ((s.alloc none).store o none).handles.length := by simp
  rw [PtrState.holders_store _ _ _ _ hlen2, PtrState.load_store_ne _ _ _ _ hne,
    PtrState.load_alloc_new, PtrState.holders_store _ _ _ _ hlen1, hld,
    PtrState.holders_alloc]
  simp only [PtrState.sharedCount_store, PtrState.sharedCount_alloc, h0]
  by_cases hp : s.load o = some l
  · have hpos := s.holders_pos o l hp
    simp [hp]
    omega
  · simp [hp]

/-- The handle-count invariant is kept by `release`. -/
theorem LabelPtr.release_countsMatch (s : PtrState) (this : Nat) (hinv : s.CountsMatch)
    (hthis : this < s.handles.length) : (LabelPtr.release s this).CountsMatch := by
  have hroot : (LabelPtr.release s this).root = s.root := by
    unfold LabelPtr.release
    simp only
    split
    · split <;> simp
    · simp
  intro l hl
  rw [hroot] at hl
  have h0 := hinv l hl
  have hst := s.holders_store this none l hthis
  unfold LabelPtr.release
  cases hold : s.load this with
  | none =>
    simp only [hold] at hst ⊢
    simp only [PtrState.sharedCount_store, hst, h0]
    simp
  | some a =>
    have hpos := s.holders_pos this a hold
    simp only [hold] at hst ⊢
    by_cases ha : a = s.root
    · have hal : ¬ (some a = some l) := by
        intro h
        exact hl ((Option.some.inj h) ▸ ha)
      simp only [ha, ne_eq, not_true_eq_false, if_false]
      simp only [PtrState.sharedCount_store, h0, hst]
      simp [hal]
    · simp only [ne_eq, ha, not_false_eq_true, if_true]
      rw [PtrState.holders_decShared, hst]
      by_cases hal : l = a
      · subst hal
        simp only [PtrState.sharedCount_decShared, if_true, PtrState.sharedCount_store, h0]
        simp
      · have hal' : ¬ (some a = some l) := by
          intro h
          exact hal (Option.some.inj h).symm
        simp only [PtrState.sharedCount_decShared, hal, if_false,
          PtrState.sharedCount_store, h0]
        simp [hal']

/-- The handle-count invariant is kept by move assignment. -/
theorem LabelPtr.assignMove_countsMatch (s : PtrState) (this o : Nat) (hinv : s.CountsMatch)
    (hthis : this < s.handles.length) (ho : o < s.handles.length) :
    (LabelPtr.assignMove s this o).CountsMatch := by
  have hroot : (LabelPtr.assignMove s this o).root = s.root := by
    unfold LabelPtr.assignMove
    dsimp only
    split
    · split
      · split <;> simp
      · simp
    · simp
  intro l hl
  rw [hroot] at hl
  have h0 := hinv l hl
  have hst1 := s.holders_store o none l ho
  have hlen : this < (s.store o none).handles.length := by simpa using hthis
  have hst2 := (s.store o none).holders_store this (s.load o) l hlen
  have hposl : s.load o = some l → 1 ≤ s.holders l := s.holders_pos o l
  unfold LabelPtr.assignMove
  dsimp only
  cases hold : (s.store o none).load this with
  | none =>
    simp only [hold] at hst2 ⊢
    simp only [PtrState.sharedCount_store, h0, hst2, hst1]
    by_cases hpl : s.load o = some l
    · have := hposl hpl
      simp [hpl]
      omega
    · simp [hpl]
  | some a =>
    have hpos1 := (s.store o none).holders_pos this a hold
    have hst1a := s.holders_store o none a ho
    simp only [hold] at hst2 ⊢
    by_cases ha : a = s.root
    · have hal : ¬ (some a = some l) := by
        intro h
        exact hl ((Option.some.inj h) ▸ ha)
      simp only [ha, ne_eq, not_true_eq_false, if_false]
      simp only [PtrState.sharedCount_store, h0, hst2, hst1]
      by_cases hpl : s.load o = some l
      · have := hposl hpl
        simp [hpl, hal]
        omega
      · simp [hpl, hal]
    · simp only [ne_eq, ha, not_false_eq_true, if_true]
      by_cases hp : s.load o = some a
      · simp only [hp, if_true]
        rw [hp] at hst2
        rw [PtrState.holders_decSharedReachable, hst2, hst1]
        by_cases hal : l = a
        · subst hal
          simp only [PtrState.sharedCount_decSharedReachable, if_true,
            PtrState.sharedCount_store, h0]
          simp [hp] at hst1a
          simp [hp]
          omega
        · have hal' : ¬ (some a = some l) := by
            intro h
            exact hal (Option.some.inj h).symm
          simp only [PtrState.sharedCount_decSharedReachable, hal, if_false,
            PtrState.sharedCount_store, h0]
          simp [hp, hal']
      · simp only [hp, if_false]
        rw [PtrState.holders_decShared, hst2, hst1]
        by_cases hal : l = a
        · subst hal
          simp only [PtrState.sharedCount_decShared, if_true,
            PtrState.sharedCount_store, h0]
          simp [hp]
        · have hal' : ¬ (some a = some l) := by
            intro h
            exact hal (Option.some.inj h).symm
          simp only [PtrState.sharedCount_decShared, hal, if_false,
            PtrState.sharedCount_store, h0]
          by_cases hpl : s.load o = some l
          · have := hposl hpl
            simp [hpl, hal']
            omega
          · simp [hpl, hal']

/-- C9: from a state in which the shared count of every label other than
the root equals the number of handles that hold it, each handle operation
on existing handles (construction from a raw pointer, copy construction,
move construction, copy assignment, move assignment, `replace`, `release`,
destruction) leads to a state in which that equality holds again. -/
theorem handle_count_invariant (s : PtrState) (op : PtrOp) (hinv : s.CountsMatch)
    (hvalid : op.valid s) : (s.step op).CountsMatch := by
  cases op with
  | ctor ptr => exact LabelPtr.ctor_countsMatch s ptr hinv
  | ctorCopy o => exact LabelPtr.ctorCopy_countsMatch s o hinv hvalid
  | ctorMove o => exact LabelPtr.ctorMove_countsMatch s o hinv hvalid
  | assignCopy this o => exact LabelPtr.replace_countsMatch s this _ hinv hvalid.1
  | assignMove this o => exact LabelPtr.assignMove_countsMatch s this o hinv hvalid.1 hvalid.2
  | replace this ptr => exact LabelPtr.replace_countsMatch s this ptr hinv hvalid
  | release this => exact LabelPtr.release_countsMatch s this hinv hvalid
  | dtor this => exact LabelPtr.release_countsMatch s this hinv hvalid

theorem exPtrState_countsMatch : exPtrState.CountsMatch := by
  intro l hl
  have hl0 : l ≠ 0 := hl
  by_cases h1 : l = 1
  · subst h1
    decide
  · by_cases h2 : l = 2
    · subst h2
      decide
    · have hne1 : ¬ ((1 : Nat) = l) := fun h => h1 h.symm
      have hne2 : ¬ ((2 : Nat) = l) := fun h => h2 h.symm
      simp [exPtrState, PtrState.holders, List.count_cons, h1, h2, hne1, hne2]

/-- Witness for C9: handle 0 of `exPtrState`, which holds label 1, is
assigned the label it already holds. -/
theorem handle_count_invariant_witness :
    exPtrState.CountsMatch ∧ (PtrOp.replace 0 (some 1)).valid exPtrState ∧
      (exPtrState.step (PtrOp.replace 0 (some 1))).CountsMatch :=
  ⟨exPtrState_countsMatch, (by decide : 0 < 3),
    handle_count_invariant exPtrState (PtrOp.replace 0 (some 1)) exPtrState_countsMatch
      (by decide : 0 < 3)⟩

theorem PtrState.lt_of_load (s : PtrState) (i : Nat) (l : Lbl) (hl : s.load i = some l) :
    i < s.handles.length := by
  by_contra hge
  simp [PtrState.load, List.getD_eq_getElem?_getD,
    List.getElem?_eq_none (Nat.le_of_not_lt hge)] at hl

/-- C10: for a handle `this` holding a label `a` other than the root and a
label `b` other than the root and other than `a`, `replace(b)` leaves the
handle holding `b`, calls `incShared()` on `b` once and then `decShared()` on
`a` once and nothing else, so that the count of `b` is one higher, the count
of `a` one lower and the count of every other label as before; copy
assignment from a handle `o` that holds `b` does exactly the same. -/
theorem replace_other_target (s : PtrState) (this : Nat) (a b : Lbl)
    (hold : s.load this = some a) (ha : a ≠ s.root) (hb : b ≠ s.root) (hab : b ≠ a) :
    (LabelPtr.replace s this (some b)).load this = some b ∧
    (LabelPtr.replace s this (some b)).trace =
      s.trace ++ [PtrEvent.incShared b, PtrEvent.decShared a] ∧
    (LabelPtr.replace s this (some b)).sharedCount b = s.sharedCount b + 1 ∧
    (LabelPtr.replace s this (some b)).sharedCount a = s.sharedCount a - 1 ∧
    (∀ l, l ≠ a → l ≠ b →
      (LabelPtr.replace s this (some b)).sharedCount l = s.sharedCount l) ∧
    (∀ o, s.load o = some b →
      LabelPtr.assignCopy s this o = LabelPtr.replace s this (some b)) := by
  have hthis := s.lt_of_load this a hold
  have hne : ¬ (some b = some a) := fun h => hab (Option.some.inj h)
  have hrep : LabelPtr.replace s this (some b) =
      (((s.incShared b).store this (some b)).decShared a) := by
    unfold LabelPtr.replace
    have h1 : s.incIfCounted (some b) = s.incShared b := by
      simp [PtrState.incIfCounted, hb]
    have h2 : (s.incShared b).load this = some a := hold
    simp only [h1, h2, ne_eq, ha, not_false_eq_true, if_true, hne, if_false]
  rw [hrep]
  refine ⟨?_, ?_, ?_, ?_, ?_, ?_⟩
  · exact PtrState.load_store_same (s.incShared b) this (some b) hthis
  · simp [PtrState.decShared, PtrState.store, PtrState.incShared]
  · simp [hab]
  · simp [Ne.symm hab]
  · intro l hla hlb
    simp [hla, hlb]
  · intro o ho
    simp only [LabelPtr.assignCopy, LabelPtr.get, ho, hrep]

/-- Witness for C10: handle 0 of `exPtrState`, which holds label 1, is given
label 2. -/
theorem replace_other_target_witness :
    (LabelPtr.replace exPtrState 0 (some 2)).load 0 = some 2 ∧
    (LabelPtr.replace exPtrState 0 (some 2)).trace =
      exPtrState.trace ++ [PtrEvent.incShared 2, PtrEvent.decShared 1] ∧
    (LabelPtr.replace exPtrState 0 (some 2)).sharedCount 2 = exPtrState.sharedCount 2 + 1 ∧
    (LabelPtr.replace exPtrState 0 (some 2)).sharedCount 1 = exPtrState.sharedCount 1 - 1 ∧
    (∀ l, l ≠ 1 → l ≠ 2 →
      (LabelPtr.replace exPtrState 0 (some 2)).sharedCount l = exPtrState.sharedCount l) ∧
    (∀ o, exPtrState.load o = some 2 →
      LabelPtr.assignCopy exPtrState 0 o = LabelPtr.replace exPtrState 0 (some 2)) :=
  replace_other_target exPtrState 0 1 2 (by decide) (by decide) (by decide) (by decide)

/-- C11: for a handle `this` holding a label `l` other than the root,
`replace(l)` leaves the handle holding `l`, calls `incShared()` and then
`decSharedReachable()` on `l` and nothing else, leaves the shared count of
`l` (and of every label) as it was and destroys no label, whatever the count
of `l`, hence also when `this` is the only handle on `l`; copy assignment
from a handle `o` that holds `l` does exactly the same. -/
theorem replace_same_target (s : PtrState) (this : Nat) (l : Lbl)
    (hold : s.load this = some l) (hl : l ≠ s.root) :
    (LabelPtr.replace s this (some l)).load this = some l ∧
    (LabelPtr.replace s this (some l)).trace =
      s.trace ++ [PtrEvent.incShared l, PtrEvent.decSharedReachable l] ∧
    (LabelPtr.replace s this (some l)).sharedCount l = s.sharedCount l ∧
    (LabelPtr.replace s this (some l)).sharedCount = s.sharedCount ∧
    (LabelPtr.replace s this (some l)).destroyed = s.destroyed ∧
    (∀ o, s.load o = some l →
      LabelPtr.assignCopy s this o = LabelPtr.replace s this (some l)) := by
  have hthis := s.lt_of_load this l hold
  have hrep : LabelPtr.replace s this (some l) =
      (((s.incShared l).store this (some l)).decSharedReachable l) := by
    unfold LabelPtr.replace
    have h1 : s.incIfCounted (some l) = s.incShared l := by
      simp [PtrState.incIfCounted, hl]
    have h2 : (s.incShared l).load this = some l := hold
    simp only [h1, h2, ne_eq, hl, not_false_eq_true, if_true]
  have hcount : (((s.incShared l).store this (some l)).decSharedReachable l).sharedCount =
      s.sharedCount := by
    funext x
    by_cases hx : x = l
    · subst hx
      simp
    · simp [hx]
  rw [hrep]
  refine ⟨?_, ?_, ?_, hcount, rfl, ?_⟩
  · exact PtrState.load_store_same (s.incShared l) this (some l) hthis
  · simp [PtrState.decSharedReachable, PtrState.store, PtrState.incShared]
  · rw [hcount]
  · intro o ho
    simp only [LabelPtr.assignCopy, LabelPtr.get, ho, hrep]

/-- Witness for C11: handle 1 of `exPtrState` is the only handle on label 2
and is assigned label 2. -/
theorem replace_same_target_witness :
    (LabelPtr.replace exPtrState 1 (some 2)).load 1 = some 2 ∧
    (LabelPtr.replace exPtrState 1 (some 2)).trace =
      exPtrState.trace ++ [PtrEvent.incShared 2, PtrEvent.decSharedReachable 2] ∧
    (LabelPtr.replace exPtrState 1 (some 2)).sharedCount 2 = exPtrState.sharedCount 2 ∧
    (LabelPtr.replace exPtrState 1 (some 2)).sharedCount = exPtrState.sharedCount ∧
    (LabelPtr.replace exPtrState 1 (some 2)).destroyed = exPtrState.destroyed ∧
    (∀ o, exPtrState.load o = some 2 →
      LabelPtr.assignCopy exPtrState 1 o = LabelPtr.replace exPtrState 1 (some 2)) :=
  replace_same_target exPtrState 1 2 (by decide) (by decide)

theorem PtrState.rootUntouched_refl (s : PtrState) : s.RootUntouched s :=
  ⟨rfl, rfl, rfl, [], by simp, by simp⟩

theorem PtrState.rootUntouched_trans {s t u : PtrState} (h1 : s.RootUntouched t)
    (h2 : t.RootUntouched u) : s.RootUntouched u := by
  obtain ⟨hr1, hc1, hd1, tr1, ht1, he1⟩ := h1
  obtain ⟨hr2, hc2, hd2, tr2, ht2, he2⟩ := h2
  rw [hr1] at hc2 hd2 he2
  refine ⟨hr2.trans hr1, hc2.trans hc1, hd2.trans hd1, tr1 ++ tr2, ?_, ?_⟩
  · rw [ht2, ht1, List.append_assoc]
  · intro e he
    rcases List.mem_append.mp he with h | h
    · exact he1 e h
    · exact he2 e h

theorem PtrState.rootUntouched_incShared (s : PtrState) (l : Lbl) (hl : l ≠ s.root) :
    s.RootUntouched (s.incShared l) := by
  refine ⟨rfl, ?_, rfl, [PtrEvent.incShared l], rfl, ?_⟩
  · simp [Ne.symm hl]
  · intro e he
    simp only [List.mem_singleton] at he
    subst he
    exact hl

theorem PtrState.rootUntouched_decShared (s : PtrState) (l : Lbl) (hl : l ≠ s.root) :
    s.RootUntouched (s.decShared l) := by
  refine ⟨rfl, ?_, ?_, [PtrEvent.decShared l], rfl, ?_⟩
  · simp [Ne.symm hl]
  · simp [PtrState.decShared, Function.update_noteq (Ne.symm hl)]
  · intro e he
    simp only [List.mem_singleton] at he
    subst he
    exact hl

theorem PtrState.rootUntouched_decSharedReachable (s : PtrState) (l : Lbl)
    (hl : l ≠ s.root) : s.RootUntouched (s.decSharedReachable l) := by
  refine ⟨rfl, ?_, rfl, [PtrEvent.decSharedReachable l], rfl, ?_⟩
  · simp [Ne.symm hl]
  · intro e he
    simp only [List.mem_singleton] at he
    subst he
    exact hl

theorem PtrState.rootUntouched_call (s : PtrState) (e : PtrEvent)
    (hl : PtrEvent.label e ≠ s.root) : s.RootUntouched (s.call e) := by
  refine ⟨rfl, rfl, rfl, [e], rfl, ?_⟩
  intro e' he
  simp only [List.mem_singleton] at he
  subst he
  exact hl

theorem PtrState.rootUntouched_store (s : PtrState) (i : Nat) (p : Option Lbl) :
    s.RootUntouched (s.store i p) :=
  ⟨rfl, rfl, rfl, [], by simp [PtrState.store], by simp⟩

theorem PtrState.rootUntouched_alloc (s : PtrState) (p : Option Lbl) :
    s.RootUntouched (s.alloc p) :=
  ⟨rfl, rfl, rfl, [], by simp [PtrState.alloc], by simp⟩

theorem PtrState.rootUntouched_incIfCounted (s : PtrState) (p : Option Lbl) :
    s.RootUntouched (s.incIfCounted p) := by
  unfold PtrState.incIfCounted
  cases p with
  | none => exact s.rootUntouched_refl
  | some l =>
    by_cases hl : l = s.root
    · simp only [hl, ne_eq, not_true_eq_false, if_false]
      exact s.rootUntouched_refl
    · simp only [ne_eq, hl, not_false_eq_true, if_true]
      exact s.rootUntouched_incShared l hl

/-- The tail of `replace` and of move assignment: the decrement of the old
target `old` when the new target is `ptr`. -/
theorem PtrState.rootUntouched_drop (s : PtrState) (old ptr : Option Lbl) :
    s.RootUntouched
      (match old with
        | some l =>
          if l ≠ s.root then
            if ptr = some l then s.decSharedReachable l else s.decShared l
          else s
        | none => s) := by
  cases old with
  | none => exact s.rootUntouched_refl
  | some l =>
    by_cases hl : l = s.root
    · simp only [hl, ne_eq, not_true_eq_false, if_false]
      exact s.rootUntouched_refl
    · simp only [ne_eq, hl, not_false_eq_true, if_true]
      by_cases hp : ptr = some l
      · simp only [hp, if_true]
        exact s.rootUntouched_decSharedReachable l hl
      · simp only [hp, if_false]
        exact s.rootUntouched_decShared l hl

theorem LabelPtr.rootUntouched_replace (s : PtrState) (this : Nat) (ptr : Option Lbl) :
    s.RootUntouched (LabelPtr.replace s this ptr) := by
  have h1 := s.rootUntouched_incIfCounted ptr
  have h2 := (s.incIfCounted ptr).rootUntouched_store this ptr
  have h3 := ((s.incIfCounted ptr).store this ptr).rootUntouched_drop
    ((s.incIfCounted ptr).load this) ptr
  have hroot : ((s.incIfCounted ptr).store this ptr).root = s.root := by simp
  rw [hroot] at h3
  exact PtrState.rootUntouched_trans (PtrState.rootUntouched_trans h1 h2) h3

theorem LabelPtr.rootUntouched_assignMove (s : PtrState) (this o : Nat) :
    s.RootUntouched (LabelPtr.assignMove s this o) := by
  have h1 := s.rootUntouched_store o none
  have h2 := (s.store o none).rootUntouched_store this (s.load o)
  have h3 := ((s.store o none).store this (s.load o)).rootUntouched_drop
    ((s.store o none).load this) (s.load o)
  exact PtrState.rootUntouched_trans (PtrState.rootUntouched_trans h1 h2) h3

theorem LabelPtr.rootUntouched_release (s : PtrState) (this : Nat) :
    s.RootUntouched (LabelPtr.release s this) := by
  have h1 := s.rootUntouched_store this none
  refine PtrState.rootUntouched_trans h1 ?_
  unfold LabelPtr.release
  dsimp only
  cases s.load this with
  | none => exact PtrState.rootUntouched_refl _
  | some l =>
    by_cases hl : l = s.root
    · simp only [hl, ne_eq, not_true_eq_false, if_false]
      exact PtrState.rootUntouched_refl _
    · simp only [ne_eq, hl, not_false_eq_true, if_true]
      exact PtrState.rootUntouched_decShared _ l hl

theorem PtrState.rootUntouched_step (s : PtrState) (op : PtrOp) :
    s.RootUntouched (s.step op) := by
  cases op with
  | ctor ptr =>
    exact PtrState.rootUntouched_trans (s.rootUntouched_alloc ptr)
      ((s.alloc ptr).rootUntouched_incIfCounted ptr)
  | ctorCopy o =>
    exact PtrState.rootUntouched_trans
      (PtrState.rootUntouched_trans (s.rootUntouched_alloc none)
        ((s.alloc none).rootUntouched_incIfCounted _))
      (PtrState.rootUntouched_store _ _ _)
  | ctorMove o =>
    exact PtrState.rootUntouched_trans
      (PtrState.rootUntouched_trans (s.rootUntouched_alloc none)
        ((s.alloc none).rootUntouched_store o none))
      (PtrState.rootUntouched_store _ _ _)
  | assignCopy this o => exact LabelPtr.rootUntouched_replace s this _
  | assignMove this o => exact LabelPtr.rootUntouched_assignMove s this o
  | replace this ptr => exact LabelPtr.rootUntouched_replace s this ptr
  | release this => exact LabelPtr.rootUntouched_release s this
  | dtor this => exact LabelPtr.rootUntouched_release s this

theorem PtrState.rootUntouched_apply (s : PtrState) (op : HandleOp) :
    s.RootUntouched (s.apply op) := by
  cases op with
  | basic op => exact s.rootUntouched_step op
  | bitwiseFix this => exact s.rootUntouched_incIfCounted _
  | mark this =>
    show s.RootUntouched (LabelPtr.mark s this)
    unfold LabelPtr.mark
    cases s.load this with
    | none => exact s.rootUntouched_refl
    | some l =>
      by_cases hl : l = s.root
      · simp only [hl, ne_eq, not_true_eq_false, if_false]
        exact s.rootUntouched_refl
      · simp only [ne_eq, hl, not_false_eq_true, if_true]
        exact PtrState.rootUntouched_trans (s.rootUntouched_decSharedReachable l hl)
          (PtrState.rootUntouched_call _ _ hl)
  | scan this =>
    show s.RootUntouched (LabelPtr.scan s this)
    unfold LabelPtr.scan
    cases s.load this with
    | none => exact s.rootUntouched_refl
    | some l =>
      by_cases hl : l = s.root
      · simp only [hl, ne_eq, not_true_eq_false, if_false]
        exact s.rootUntouched_refl
      · simp only [ne_eq, hl, not_false_eq_true, if_true]
        exact PtrState.rootUntouched_call _ _ hl
  | reach this =>
    show s.RootUntouched (LabelPtr.reach s this)
    unfold LabelPtr.reach
    cases s.load this with
    | none => exact s.rootUntouched_refl
    | some l =>
      by_cases hl : l = s.root
      · simp only [hl, ne_eq, not_true_eq_false, if_false]
        exact s.rootUntouched_refl
      · simp only [ne_eq, hl, not_false_eq_true, if_true]
        exact PtrState.rootUntouched_trans (s.rootUntouched_incShared l hl)
          (PtrState.rootUntouched_call _ _ hl)
  | collect this =>
    show s.RootUntouched (LabelPtr.collect s this)
    unfold LabelPtr.collect
    dsimp only
    refine PtrState.rootUntouched_trans (s.rootUntouched_store this none) ?_
    cases s.load this with
    | none => exact PtrState.rootUntouched_refl _
    | some l =>
      by_cases hl : l = s.root
      · simp only [hl, ne_eq, not_true_eq_false, if_false]
        exact PtrState.rootUntouched_refl _
      · simp only [ne_eq, hl, not_false_eq_true, if_true]
        exact PtrState.rootUntouched_call _ _ hl

/-- C12: over every sequence of handle operations (construction, copy and
move construction, copy and move assignment, `replace`, `release`,
destruction, `bitwiseFix`, `mark`, `scan`, `reach`, `collect`), every call
made on a label (`incShared`, `decShared`, `decSharedReachable`, `mark`,
`scan`, `reach`, `collect`) is made on a label other than the root, and the
shared count and the destroyed flag of the root are the same after the
sequence as before it. -/
theorem root_never_counted (s : PtrState) (ops : List HandleOp) :
    (s.run ops).root = s.root ∧
    (s.run ops).sharedCount s.root = s.sharedCount s.root ∧
    (s.run ops).destroyed s.root = s.destroyed s.root ∧
    ∃ tr, (s.run ops).trace = s.trace ++ tr ∧ ∀ e ∈ tr, PtrEvent.label e ≠ s.root := by
  have key : ∀ (ops : List HandleOp) (s : PtrState), s.RootUntouched (s.run ops) := by
    intro ops
    induction ops with
    | nil => intro s; exact s.rootUntouched_refl
    | cons op ops ih =>
      intro s
      exact PtrState.rootUntouched_trans (s.rootUntouched_apply op) (ih (s.apply op))
  exact key ops s

/-- C13 (as amended): for a handle whose target is the root label, `mark()`,
`scan()` and `reach()` leave the whole state as it was, and `collect()` makes
no call and changes no count but empties the handle; for a handle whose
target `l` is not the root, `mark()` calls `decSharedReachable()` and then
`mark()` on `l`, `scan()` calls `scan()` on `l`, `reach()` calls
`incShared()` and then `reach()` on `l`, and `collect()` empties the handle
and calls `collect()` on `l`. -/
theorem collector_hooks (s : PtrState) (this : Nat) (l : Lbl)
    (hold : s.load this = some l) :
    (l = s.root →
      LabelPtr.mark s this = s ∧ LabelPtr.scan s this = s ∧ LabelPtr.reach s this = s ∧
      LabelPtr.collect s this = s.store this none ∧
      LabelPtr.get (LabelPtr.collect s this) this = none ∧
      LabelPtr.query (LabelPtr.collect s this) this = false ∧
      (LabelPtr.collect s this).trace = s.trace ∧
      (LabelPtr.collect s this).sharedCount = s.sharedCount ∧
      (LabelPtr.collect s this).destroyed = s.destroyed) ∧
    (l ≠ s.root →
      LabelPtr.mark s this = (s.decSharedReachable l).call (PtrEvent.mark l) ∧
      LabelPtr.scan s this = s.call (PtrEvent.scan l) ∧
      LabelPtr.reach s this = (s.incShared l).call (PtrEvent.reach l) ∧
      LabelPtr.collect s this = (s.store this none).call (PtrEvent.collect l)) := by
  have hthis := s.lt_of_load this l hold
  constructor
  · intro hl
    have hc : LabelPtr.collect s this = s.store this none := by
      simp [LabelPtr.collect, hold, hl]
    refine ⟨by simp [LabelPtr.mark, hold, hl], by simp [LabelPtr.scan, hold, hl],
      by simp [LabelPtr.reach, hold, hl], hc, ?_, ?_, ?_, ?_, ?_⟩
    · rw [hc]
      exact s.load_store_same this none hthis
    · rw [hc]
      simp [LabelPtr.query, s.load_store_same this none hthis]
    · rw [hc]
      rfl
    · rw [hc]
      rfl
    · rw [hc]
      rfl
  · intro hl
    exact ⟨by simp [LabelPtr.mark, hold, hl], by simp [LabelPtr.scan, hold, hl],
      by simp [LabelPtr.reach, hold, hl], by simp [LabelPtr.collect, hold, hl]⟩

/-- Witness for C13 (as amended): handle 0 of `exRootState`, which holds the
root. -/
theorem collector_hooks_witness :
    (0 = exRootState.root →
      LabelPtr.mark exRootState 0 = exRootState ∧
      LabelPtr.scan exRootState 0 = exRootState ∧
      LabelPtr.reach exRootState 0 = exRootState ∧
      LabelPtr.collect exRootState 0 = exRootState.store 0 none ∧
      LabelPtr.get (LabelPtr.collect exRootState 0) 0 = none ∧
      LabelPtr.query (LabelPtr.collect exRootState 0) 0 = false ∧
      (LabelPtr.collect exRootState 0).trace = exRootState.trace ∧
      (LabelPtr.collect exRootState 0).sharedCount = exRootState.sharedCount ∧
      (LabelPtr.collect exRootState 0).destroyed = exRootState.destroyed) ∧
    (0 ≠ exRootState.root →
      LabelPtr.mark exRootState 0 =
        (exRootState.decSharedReachable 0).call (PtrEvent.mark 0) ∧
      LabelPtr.scan exRootState 0 = exRootState.call (PtrEvent.scan 0) ∧
      LabelPtr.reach exRootState 0 = (exRootState.incShared 0).call (PtrEvent.reach 0) ∧
      LabelPtr.collect exRootState 0 =
        (exRootState.store 0 none).call (PtrEvent.collect 0)) :=
  collector_hooks exRootState 0 0 (by decide)

/-- C13 fails as stated: handle 0 of `exRootState` holds the root label, and
after `collect()` it holds null: `get()` returns null and `query()` is
false. -/
theorem collector_hooks_counterexample :
    LabelPtr.get exRootState 0 = some exRootState.root ∧
    LabelPtr.get (LabelPtr.collect exRootState 0) 0 = none ∧
    LabelPtr.query (LabelPtr.collect exRootState 0) 0 = false := by
  decide

theorem PtrState.load_drop (s : PtrState) (old ptr : Option Lbl) (i : Nat) :
    (match old with
      | some l =>
        if l ≠ s.root then
          if ptr = some l then s.decSharedReachable l else s.decShared l
        else s
      | none => s).load i = s.load i := by
  cases old with
  | none => rfl
  | some l =>
    by_cases hl : l = s.root
    · simp only [hl, ne_eq, not_true_eq_false, if_false]
    · simp only [ne_eq, hl, not_false_eq_true, if_true]
      by_cases hp : ptr = some l
      · simp only [hp, if_true]
        rfl
      · simp only [hp, if_false]
        rfl

/-- C14: for two distinct existing handles `src` and `dst`, move-constructing
a new handle from `src` leaves `src` empty (`get()` null, `query()` false)
and the new handle holding what `src` held, and move-assigning `src` into
`dst` leaves `src` empty and `dst` holding what `src` held. -/
theorem move_empties_source (s : PtrState) (src dst : Nat)
    (hsrc : src < s.handles.length) (hdst : dst < s.handles.length) (hne : src ≠ dst) :
    LabelPtr.get (LabelPtr.ctorMove s src) src = none ∧
    LabelPtr.query (LabelPtr.ctorMove s src) src = false ∧
    LabelPtr.get (LabelPtr.ctorMove s src) s.handles.length = LabelPtr.get s src ∧
    LabelPtr.get (LabelPtr.assignMove s dst src) src = none ∧
    LabelPtr.query (LabelPtr.assignMove s dst src) src = false ∧
    LabelPtr.get (LabelPtr.assignMove s dst src) dst = LabelPtr.get s src := by
  have hnew : src ≠ s.handles.length := Nat.ne_of_lt hsrc
  have hsrc1 : src < (s.alloc none).handles.length := by
    simp only [PtrState.handles_length_alloc]
    exact Nat.lt_succ_of_lt hsrc
  have hc1 : (LabelPtr.ctorMove s src).load src = none := by
    unfold LabelPtr.ctorMove
    dsimp only
    rw [PtrState.load_store_ne _ _ _ _ (Ne.symm hnew)]
    exact PtrState.load_store_same _ src none hsrc1
  have hc2 : (LabelPtr.ctorMove s src).load s.handles.length = s.load src := by
    unfold LabelPtr.ctorMove
    dsimp only
    rw [PtrState.load_store_same _ _ _ (by simp), s.load_alloc none src hsrc]
  have ha1 : (LabelPtr.assignMove s dst src).load src = none := by
    unfold LabelPtr.assignMove
    dsimp only
    refine Eq.trans (PtrState.load_drop ((s.store src none).store dst (s.load src))
      ((s.store src none).load dst) (s.load src) src) ?_
    rw [PtrState.load_store_ne _ _ _ _ (Ne.symm hne)]
    exact s.load_store_same src none hsrc
  have ha2 : (LabelPtr.assignMove s dst src).load dst = s.load src := by
    unfold LabelPtr.assignMove
    dsimp only
    refine Eq.trans (PtrState.load_drop ((s.store src none).store dst (s.load src))
      ((s.store src none).load dst) (s.load src) dst) ?_
    exact PtrState.load_store_same _ dst _ (by simpa using hdst)
  refine ⟨hc1, ?_, hc2, ha1, ?_, ha2⟩
  · simp only [LabelPtr.query, hc1, Option.isSome_none]
  · simp only [LabelPtr.query, ha1, Option.isSome_none]

/-- Witness for C14: handle 1 of `exPtrState` is moved into a new handle and
into handle 0. -/
theorem move_empties_source_witness :
    LabelPtr.get (LabelPtr.ctorMove exPtrState 1) 1 = none ∧
    LabelPtr.query (LabelPtr.ctorMove exPtrState 1) 1 = false ∧
    LabelPtr.get (LabelPtr.ctorMove exPtrState 1) exPtrState.handles.length =
      LabelPtr.get exPtrState 1 ∧
    LabelPtr.get (LabelPtr.assignMove exPtrState 0 1) 1 = none ∧
    LabelPtr.query (LabelPtr.assignMove exPtrState 0 1) 1 = false ∧
    LabelPtr.get (LabelPtr.assignMove exPtrState 0 1) 0 = LabelPtr.get exPtrState 1 :=
  move_empties_source exPtrState 1 0 (by decide) (by decide) (by decide)

theorem PtrState.emitted_of_append (s t : PtrState) (tr : List PtrEvent)
    (h : t.trace = s.trace ++ tr) : s.emitted t = tr := by
  simp [PtrState.emitted, h]

@[simp] theorem PtrState.emitted_self (s : PtrState) : s.emitted s = [] := by
  simp [PtrState.emitted]

@[simp] theorem PtrState.trace_store (s : PtrState) (i : Nat) (p : Option Lbl) :
    (s.store i p).trace = s.trace := rfl

@[simp] theorem PtrState.trace_alloc (s : PtrState) (p : Option Lbl) :
    (s.alloc p).trace = s.trace := rfl

@[simp] theorem PtrState.trace_incShared (s : PtrState) (l : Lbl) :
    (s.incShared l).trace = s.trace ++ [PtrEvent.incShared l] := rfl

@[simp] theorem PtrState.trace_decShared (s : PtrState) (l : Lbl) :
    (s.decShared l).trace = s.trace ++ [PtrEvent.decShared l] := rfl

@[simp] theorem PtrState.trace_decSharedReachable (s : PtrState) (l : Lbl) :
    (s.decSharedReachable l).trace = s.trace ++ [PtrEvent.decSharedReachable l] := rfl

@[simp] theorem PtrState.trace_call (s : PtrState) (e : PtrEvent) :
    (s.call e).trace = s.trace ++ [e] := rfl

theorem PtrState.trace_incIfCounted (s : PtrState) (p : Option Lbl) :
    (s.incIfCounted p).trace = s.trace ∨
      ∃ l, (s.incIfCounted p).trace = s.trace ++ [PtrEvent.incShared l] := by
  unfold PtrState.incIfCounted
  cases p with
  | none => exact Or.inl rfl
  | some l =>
    by_cases hl : l = s.root
    · simp [hl]
    · right
      exact ⟨l, by simp [hl]⟩

theorem PtrState.load_store_none (s : PtrState) (o this : Nat) (l : Lbl) :
    (s.store o none).load this = some l ↔ this ≠ o ∧ s.load this = some l := by
  by_cases h : this = o
  · subst h
    constructor
    · intro hl
      exfalso
      have hlt := (s.store this none).lt_of_load this l hl
      rw [PtrState.handles_length_store] at hlt
      rw [s.load_store_same this none hlt] at hl
      exact Option.noConfusion hl
    · intro hl
      exact absurd rfl hl.1
  · rw [PtrState.load_store_ne _ _ _ _ (Ne.symm h)]
    exact ⟨fun hl => ⟨h, hl⟩, fun hl => hl.2⟩

/-- Which calls the tail of `replace` and of move assignment makes. -/
theorem PtrState.emitted_drop (s0 s : PtrState) (old ptr : Option Lbl) (l : Lbl)
    (pre : List PtrEvent) (hs : s.trace = s0.trace ++ pre)
    (hpre : PtrEvent.decSharedReachable l ∉ pre) :
    PtrEvent.decSharedReachable l ∈ s0.emitted
      (match old with
        | some a =>
          if a ≠ s.root then
            if ptr = some a then s.decSharedReachable a else s.decShared a
          else s
        | none => s) ↔ (old = some l ∧ l ≠ s.root ∧ ptr = some l) := by
  cases old with
  | none =>
    rw [PtrState.emitted_of_append s0 s pre hs]
    simp [hpre]
  | some a =>
    by_cases ha : a = s.root
    · simp only [ha, ne_eq, not_true_eq_false, if_false]
      rw [PtrState.emitted_of_append s0 s pre hs]
      constructor
      · intro h
        exact absurd h hpre
      · intro h
        exact absurd (Option.some.inj h.1).symm h.2.1
    · simp only [ne_eq, ha, not_false_eq_true, if_true]
      by_cases hp : ptr = some a
      · simp only [hp, if_true]
        rw [PtrState.emitted_of_append s0 (s.decSharedReachable a)
          (pre ++ [PtrEvent.decSharedReachable a]) (by simp [hs])]
        simp only [List.mem_append, hpre, List.mem_singleton, false_or,
          PtrEvent.decSharedReachable.injEq, Option.some.injEq]
        constructor
        · intro h
          subst h
          exact ⟨rfl, ha, rfl⟩
        · intro h
          exact h.1.symm
      · simp only [hp, if_false]
        rw [PtrState.emitted_of_append s0 (s.decShared a) (pre ++ [PtrEvent.decShared a])
          (by simp [hs])]
        simp only [List.mem_append, hpre, List.mem_singleton, false_or]
        constructor
        · intro h
          exact PtrEvent.noConfusion h
        · intro h
          exfalso
          apply hp
          rw [h.2.2, Option.some.inj h.1]

theorem LabelPtr.emitted_replace (s : PtrState) (this : Nat) (ptr : Option Lbl) (l : Lbl) :
    PtrEvent.decSharedReachable l ∈ s.emitted (LabelPtr.replace s this ptr) ↔
      (s.load this = some l ∧ l ≠ s.root ∧ ptr = some l) := by
  have hld : (s.incIfCounted ptr).load this = s.load this :=
    PtrState.load_congr s _ this (PtrState.handles_incIfCounted s ptr)
  rcases s.trace_incIfCounted ptr with h | ⟨a, h⟩
  · have := PtrState.emitted_drop s ((s.incIfCounted ptr).store this ptr)
      ((s.incIfCounted ptr).load this) ptr l [] (by simp [h]) (by simp)
    rw [hld] at this
    simpa [LabelPtr.replace, hld] using this
  · have := PtrState.emitted_drop s ((s.incIfCounted ptr).store this ptr)
      ((s.incIfCounted ptr).load this) ptr l [PtrEvent.incShared a] (by simp [h])
      (by simp)
    rw [hld] at this
    simpa [LabelPtr.replace, hld] using this

theorem PtrState.not_mem_emitted_incIfCounted (s0 s : PtrState) (p : Option Lbl) (l : Lbl)
    (hs : s.trace = s0.trace) :
    PtrEvent.decSharedReachable l ∉ s0.emitted (s.incIfCounted p) := by
  rcases s.trace_incIfCounted p with h | ⟨a, h⟩
  · rw [PtrState.emitted_of_append s0 _ [] (by simp [h, hs])]
    simp
  · rw [PtrState.emitted_of_append s0 _ [PtrEvent.incShared a] (by simp [h, hs])]
    simp

/-- C20 (as amended): `decSharedReachable()` is called on a label `l` by
`mark()` when the handle holds `l` and `l` is not the root, and by
`replace`, copy assignment and move assignment exactly when the target the
handle held is `l`, `l` is not the root and the new target is `l` again;
construction from a raw pointer, copy construction, move construction,
`release`, destruction, `bitwiseFix`, `scan`, `reach` and `collect` never
call it. -/
theorem decSharedReachable_callers (s : PtrState) (l : Lbl) :
    (∀ ptr, PtrEvent.decSharedReachable l ∉ s.emitted (LabelPtr.ctor s ptr)) ∧
    (∀ o, PtrEvent.decSharedReachable l ∉ s.emitted (LabelPtr.ctorCopy s o)) ∧
    (∀ o, PtrEvent.decSharedReachable l ∉ s.emitted (LabelPtr.ctorMove s o)) ∧
    (∀ this, PtrEvent.decSharedReachable l ∉ s.emitted (LabelPtr.release s this)) ∧
    (∀ this, PtrEvent.decSharedReachable l ∉ s.emitted (LabelPtr.dtor s this)) ∧
    (∀ this, PtrEvent.decSharedReachable l ∉ s.emitted (LabelPtr.bitwiseFix s this)) ∧
    (∀ this, PtrEvent.decSharedReachable l ∉ s.emitted (LabelPtr.scan s this)) ∧
    (∀ this, PtrEvent.decSharedReachable l ∉ s.emitted (LabelPtr.reach s this)) ∧
    (∀ this, PtrEvent.decSharedReachable l ∉ s.emitted (LabelPtr.collect s this)) ∧
    (∀ this ptr, PtrEvent.decSharedReachable l ∈ s.emitted (LabelPtr.replace s this ptr) ↔
      (s.load this = some l ∧ l ≠ s.root ∧ ptr = some l)) ∧
    (∀ this o, PtrEvent.decSharedReachable l ∈ s.emitted (LabelPtr.assignCopy s this o) ↔
      (s.load this = some l ∧ l ≠ s.root ∧ s.load o = some l)) ∧
    (∀ this o, PtrEvent.decSharedReachable l ∈ s.emitted (LabelPtr.assignMove s this o) ↔
      (this ≠ o ∧ s.load this = some l ∧ l ≠ s.root ∧ s.load o = some l)) ∧
    (∀ this, PtrEvent.decSharedReachable l ∈ s.emitted (LabelPtr.mark s this) ↔
      (s.load this = some l ∧ l ≠ s.root)) := by
  have hrel : ∀ this, PtrEvent.decSharedReachable l ∉ s.emitted (LabelPtr.release s this) := by
    intro this
    unfold LabelPtr.release
    dsimp only
    cases s.load this with
    | none => simp [PtrState.emitted]
    | some a =>
      by_cases ha : a = s.root
      · simp [ha, PtrState.emitted]
      · simp only [ne_eq, ha, not_false_eq_true, if_true]
        rw [PtrState.emitted_of_append s _ [PtrEvent.decShared a] (by simp)]
        simp
  refine ⟨?_, ?_, ?_, hrel, hrel, ?_, ?_, ?_, ?_, ?_, ?_, ?_, ?_⟩
  · intro ptr
    exact PtrState.not_mem_emitted_incIfCounted s (s.alloc ptr) ptr l rfl
  · intro o
    unfold LabelPtr.ctorCopy
    dsimp only
    have h := PtrState.not_mem_emitted_incIfCounted s (s.alloc none)
      ((s.alloc none).load o) l rfl
    simpa [PtrState.emitted] using h
  · intro o
    simp [LabelPtr.ctorMove, PtrState.emitted]
  · intro this
    exact PtrState.not_mem_emitted_incIfCounted s s (s.load this) l rfl
  · intro this
    unfold LabelPtr.scan
    cases s.load this with
    | none => simp
    | some a =>
      by_cases ha : a = s.root
      · simp [ha]
      · simp only [ne_eq, ha, not_false_eq_true, if_true]
        rw [PtrState.emitted_of_append s _ [PtrEvent.scan a] (by simp)]
        simp
  · intro this
    unfold LabelPtr.reach
    cases s.load this with
    | none => simp
    | some a =>
      by_cases ha : a = s.root
      · simp [ha]
      · simp only [ne_eq, ha, not_false_eq_true, if_true]
        rw [PtrState.emitted_of_append s _ [PtrEvent.incShared a, PtrEvent.reach a]
          (by simp)]
        simp
  · intro this
    unfold LabelPtr.collect
    dsimp only
    cases s.load this with
    | none => simp [PtrState.emitted]
    | some a =>
      by_cases ha : a = s.root
      · simp [ha, PtrState.emitted]
      · simp only [ne_eq, ha, not_false_eq_true, if_true]
        rw [PtrState.emitted_of_append s _ [PtrEvent.collect a] (by simp)]
        simp
  · intro this ptr
    exact LabelPtr.emitted_replace s this ptr l
  · intro this o
    exact LabelPtr.emitted_replace s this (s.load o) l
  · intro this o
    have h := PtrState.emitted_drop s ((s.store o none).store this (s.load o))
      ((s.store o none).load this) (s.load o) l [] (by simp) (by simp)
    unfold LabelPtr.assignMove
    dsimp only
    rw [PtrState.load_store_none] at h
    constructor
    · intro hm
      have := h.mp hm
      exact ⟨this.1.1, this.1.2, this.2.1, this.2.2⟩
    · intro hm
      exact h.mpr ⟨⟨hm.1, hm.2.1⟩, hm.2.2.1, hm.2.2.2⟩
  · intro this
    unfold LabelPtr.mark
    cases hld : s.load this with
    | none => simp
    | some a =>
      by_cases ha : a = s.root
      · simp only [ha, ne_eq, not_true_eq_false, if_false, PtrState.emitted_self,
          List.not_mem_nil, Option.some.injEq, false_iff, not_and, not_not]
        intro h
        exact h.symm
      · simp only [ne_eq, ha, not_false_eq_true, if_true]
        rw [PtrState.emitted_of_append s _ [PtrEvent.decSharedReachable a, PtrEvent.mark a]
          (by simp)]
        simp only [List.mem_cons, PtrEvent.decSharedReachable.injEq, List.mem_singleton,
          Option.some.injEq]
        constructor
        · intro h
          rcases h with h | h
          · subst h
            exact ⟨rfl, ha⟩
          · rcases h with h | h
            · exact PtrEvent.noConfusion h
            · exact absurd h (List.not_mem_nil _)
        · intro h
          exact Or.inl h.1.symm

/-- C20 fails as stated: on `exPtrState`, `replace` of handle 0 by the label
it holds and move assignment of handle 2 into handle 0, which holds the same
label, both call `decSharedReachable()`. -/
theorem decSharedReachable_callers_counterexample :
    PtrEvent.decSharedReachable 1 ∈ (LabelPtr.replace exPtrState 0 (some 1)).trace ∧
    PtrEvent.decSharedReachable 1 ∈ (LabelPtr.assignMove exPtrState 0 2).trace ∧
    PtrEvent.decSharedReachable 1 ∈ (LabelPtr.assignCopy exPtrState 0 2).trace := by
  decide

/-! Properties of labels, continued. -/

theorem mapPull_some (fuel : Nat) (h : Heap) (l : Lbl) (o : Obj) (p : Out)
    (hpull : mapPull fuel h l o = some p) :
    ∃ w, chainWalk h l fuel (Walk.start h o) = some w ∧ w.last = some p.ret ∧
      p.heap = h ∧ p.trace = w.trace := by
  unfold mapPull at hpull
  cases hw : chainWalk h l fuel (Walk.start h o) with
  | none => simp [hw] at hpull
  | some w =>
    simp only [hw] at hpull
    cases hlast : w.last with
    | none => simp [hlast] at hpull
    | some n =>
      simp only [hlast, Option.some.injEq] at hpull
      subst hpull
      exact ⟨w, rfl, hlast, rfl, rfl⟩

/-- C17: when the chain walk from `o` ends on an allocated frozen object `n`
(the object `mapPull(o)` returns) that is not uniquely owned, `mapGet(o)`
returns a newly allocated copy of `n`; if `n.isFrozenUnique()` is true it
makes no call besides the lookups and the copy (no `thaw()`, no insertion)
and leaves every label, hence the memo, as it was; if it is false it calls
`thaw()` and `memo.put(n, copy)` and the memo of the label gains exactly the
entry `(n, copy)`, the other labels staying as they were. -/
theorem mapGet_single_reference (v : Virt) (hc : v.CopyOk) (fuel : Nat) (h : Heap)
    (l : Lbl) (o : Obj) (p : Out) (hpull : mapPull fuel h l o = some p)
    (hlive : h.live p.ret = true) (hfz : h.isFrozen p.ret = true)
    (hu : h.isUnique p.ret = false) :
    ∃ out, mapGet v fuel h l o = some out ∧ out.ret = (v.copy h p.ret l).2 ∧
      h.live out.ret = false ∧ (∀ e ∈ p.trace, ∃ k, e = Event.memoGet l k) ∧
      (h.isFrozenUnique p.ret = true →
        out.trace = p.trace ++ [Event.copy p.ret l] ∧
        out.heap = (v.copy h p.ret l).1 ∧ out.heap.label = h.label) ∧
      (h.isFrozenUnique p.ret = false →
        out.trace = p.trace ++ [Event.copy p.ret l, Event.thaw l,
          Event.memoPut l p.ret out.ret] ∧
        out.heap = ((v.copy h p.ret l).1.thaw l).memoPut l p.ret out.ret ∧
        (out.heap.label l).memo = (p.ret, out.ret) :: (h.label l).memo ∧
        ∀ l', l' ≠ l → out.heap.label l' = h.label l') := by
  obtain ⟨w, hw, hlast, -, htr⟩ := mapPull_some fuel h l o p hpull
  obtain ⟨n, hlast', hfzw, -⟩ := chainWalk_last h l fuel o w hw
  have hn : n = p.ret := by
    rw [hlast] at hlast'
    exact (Option.some.inj hlast').symm
  subst hn
  have hwf : w.frozen = true := by rw [← hfzw]; exact hfz
  have hfu1 : (v.copy h p.ret l).1.isFrozenUnique p.ret = h.isFrozenUnique p.ret :=
    (hc.keeps h p.ret l p.ret hlive).2.2
  have hlookups : ∀ e ∈ p.trace, ∃ k, e = Event.memoGet l k := by
    rw [htr]
    exact chainWalk_start_trace h l fuel o w hw
  cases hfu : h.isFrozenUnique p.ret with
  | true =>
    rw [hfu] at hfu1
    refine ⟨⟨(v.copy h p.ret l).2, (v.copy h p.ret l).1, w.trace ++ [Event.copy p.ret l]⟩,
      ?_, rfl, hc.fresh h p.ret l, hlookups, ?_, ?_⟩
    · unfold mapGet
      rw [hw]
      simp [hlast, hwf, hu, hfu1]
    · intro _
      exact ⟨by rw [htr], rfl, hc.labels h p.ret l⟩
    · intro hcontra
      exact Bool.noConfusion hcontra
  | false =>
    rw [hfu] at hfu1
    refine ⟨⟨(v.copy h p.ret l).2,
      ((v.copy h p.ret l).1.thaw l).memoPut l p.ret (v.copy h p.ret l).2,
      w.trace ++ [Event.copy p.ret l, Event.thaw l,
        Event.memoPut l p.ret (v.copy h p.ret l).2]⟩,
      ?_, rfl, hc.fresh h p.ret l, hlookups, ?_, ?_⟩
    · unfold mapGet
      rw [hw]
      simp [hlast, hwf, hu, hfu1]
    · intro hcontra
      exact Bool.noConfusion hcontra
    · intro _
      refine ⟨by rw [htr], rfl, ?_, ?_⟩
      · show ((((v.copy h p.ret l).1.thaw l).memoPut l p.ret (v.copy h p.ret l).2).label l).memo
          = _
        rw [Heap.label_thaw_memoPut_same, hc.labels]
      · intro l' hl'
        show (((v.copy h p.ret l).1.thaw l).memoPut l p.ret (v.copy h p.ret l).2).label l' = _
        rw [Heap.label_thaw_memoPut_other _ _ _ _ _ hl', hc.labels]

/-- Witness for C17: object 3 of `exHeap` is frozen-unique and has two
owners. -/
theorem mapGet_single_reference_witness :
    ∃ out, mapGet stdVirt 1 exHeap 0 3 = some out ∧
      out.ret = (stdVirt.copy exHeap 3 0).2 ∧
      exHeap.live out.ret = false ∧
      (∀ e ∈ ([Event.memoGet 0 3] : List Event), ∃ k, e = Event.memoGet 0 k) ∧
      (exHeap.isFrozenUnique 3 = true →
        out.trace = [Event.memoGet 0 3] ++ [Event.copy 3 0] ∧
        out.heap = (stdVirt.copy exHeap 3 0).1 ∧ out.heap.label = exHeap.label) ∧
      (exHeap.isFrozenUnique 3 = false →
        out.trace = [Event.memoGet 0 3] ++ [Event.copy 3 0, Event.thaw 0,
          Event.memoPut 0 3 out.ret] ∧
        out.heap = ((stdVirt.copy exHeap 3 0).1.thaw 0).memoPut 0 3 out.ret ∧
        (out.heap.label 0).memo = (3, out.ret) :: (exHeap.label 0).memo ∧
        ∀ l', l' ≠ 0 → out.heap.label l' = exHeap.label l') :=
  mapGet_single_reference stdVirt stdVirt_copyOk 1 exHeap 0 3 ⟨3, exHeap, [Event.memoGet 0 3]⟩
    rfl (by decide) (by decide) (by decide)

/-- A finite chain is walked to its end by the loop of `mapGet` and
`mapPull`. -/
theorem Heap.Stops.walk {h : Heap} {l : Lbl} {o : Obj} (hs : h.Stops l o) :
    ∀ (p : Option Obj) (tr : List Event),
      ∃ fuel w, chainWalk h l fuel ⟨p, some o, h.isFrozen o, tr⟩ = some w := by
  induction hs with
  | unfrozen o hf =>
    intro p tr
    exact ⟨0, ⟨p, some o, false, tr⟩, by rw [hf]; exact chainWalk_done h l 0 _ (Or.inl rfl)⟩
  | missing o hf hm =>
    intro p tr
    refine ⟨1, ⟨some o, none, true, tr ++ [Event.memoGet l o]⟩, ?_⟩
    rw [hf, chainWalk_step, hm]
    exact chainWalk_done h l 0 _ (Or.inr rfl)
  | step o m hf hm _ ih =>
    intro p tr
    obtain ⟨fuel, w, hw⟩ := ih (some o) (tr ++ [Event.memoGet l o])
    refine ⟨fuel + 1, w, ?_⟩
    rw [hf, chainWalk_step, hm]
    exact hw

theorem mapGet_of_walk (v : Virt) (fuel : Nat) (h : Heap) (l : Lbl) (o : Obj) (w : Walk)
    (hw : chainWalk h l fuel (Walk.start h o) = some w) :
    ∃ out, mapGet v fuel h l o = some out := by
  obtain ⟨n, hlast, -, -⟩ := chainWalk_last h l fuel o w hw
  unfold mapGet
  simp only [hw, hlast]
  split
  · split
    · exact ⟨_, rfl⟩
    · split <;> exact ⟨_, rfl⟩
  · exact ⟨_, rfl⟩

theorem mapPull_of_walk (fuel : Nat) (h : Heap) (l : Lbl) (o : Obj) (w : Walk)
    (hw : chainWalk h l fuel (Walk.start h o) = some w) :
    ∃ out, mapPull fuel h l o = some out := by
  obtain ⟨n, hlast, -, -⟩ := chainWalk_last h l fuel o w hw
  unfold mapPull
  simp only [hw, hlast]
  exact ⟨_, rfl⟩

/-- Finite chains carry over to a heap that differs in the frozen flag of one
object `c` whose chain is finite, and whose memo redirects entries only to
`c`. -/
theorem Heap.Stops.transfer {h h' : Heap} {l : Lbl} {c : Obj} (hc : h'.Stops l c)
    (hflag : ∀ x, x ≠ c → h'.isFrozen x = h.isFrozen x)
    (hmemo : ∀ x, x ≠ c → h'.memoGet l x = h.memoGet l x ∨ h'.memoGet l x = some c)
    {o : Obj} (hs : h.Stops l o) : h'.Stops l o := by
  induction hs with
  | unfrozen o hf =>
    by_cases hoc : o = c
    · subst hoc
      exact hc
    · exact Heap.Stops.unfrozen o (by rw [hflag o hoc]; exact hf)
  | missing o hf hm =>
    by_cases hoc : o = c
    · subst hoc
      exact hc
    · have hf' : h'.isFrozen o = true := by rw [hflag o hoc]; exact hf
      rcases hmemo o hoc with h1 | h1
      · exact Heap.Stops.missing o hf' (by rw [h1]; exact hm)
      · exact Heap.Stops.step o c hf' h1 hc
  | step o m hf hm _ ih =>
    by_cases hoc : o = c
    · subst hoc
      exact hc
    · have hf' : h'.isFrozen o = true := by rw [hflag o hoc]; exact hf
      rcases hmemo o hoc with h1 | h1
      · exact Heap.Stops.step o m hf' (by rw [h1]; exact hm) ih
      · exact Heap.Stops.step o c hf' h1 hc

/-- An object without a memo entry has a finite chain. -/
theorem Heap.Stops.of_missing (h : Heap) (l : Lbl) (c : Obj) (hm : h.memoGet l c = none) :
    h.Stops l c := by
  cases hf : h.isFrozen c with
  | false => exact Heap.Stops.unfrozen c hf
  | true => exact Heap.Stops.missing c hf hm

theorem Heap.memoGet_thaw_memoPut (h : Heap) (l : Lbl) (n c x : Obj) :
    ((h.thaw l).memoPut l n c).memoGet l x = if n = x then some c else h.memoGet l x := by
  simp [Heap.memoGet, Heap.memoPut, Heap.thaw, Memo.put, Memo.get]

theorem Heap.memoGet_congr (h h' : Heap) (l : Lbl) (x : Obj) (hl : h'.label = h.label) :
    h'.memoGet l x = h.memoGet l x := by
  simp only [Heap.memoGet, hl]

/-- Finite chains survive a `recycle` of an object without a memo entry. -/
theorem chainsEnd_recycle (v : Virt) (hv : v.FlagsOk) (h : Heap) (l : Lbl) (n : Obj)
    (hm : h.memoGet l n = none) (hends : h.ChainsEnd l) :
    (v.recycle h n l).ChainsEnd l := by
  have hmemo : ∀ x, (v.recycle h n l).memoGet l x = h.memoGet l x :=
    fun x => Heap.memoGet_congr h _ l x (hv.recycleLabels h n l)
  intro o
  refine Heap.Stops.transfer (c := n) ?_ (fun x hx => hv.recycleFlags h n l x hx)
    (fun x _ => Or.inl (hmemo x)) (hends o)
  exact Heap.Stops.of_missing _ l n (by rw [hmemo]; exact hm)

/-- Finite chains survive a `copy` that returns an object that is not a
key of the memo. -/
theorem chainsEnd_copy (v : Virt) (hv : v.FlagsOk) (h : Heap) (l : Lbl) (n : Obj)
    (hkey : h.memoGet l (v.copy h n l).2 = none) (hends : h.ChainsEnd l) :
    (v.copy h n l).1.ChainsEnd l := by
  have hmemo : ∀ x, (v.copy h n l).1.memoGet l x = h.memoGet l x :=
    fun x => Heap.memoGet_congr h _ l x (hv.copyLabels h n l)
  intro o
  refine Heap.Stops.transfer (c := (v.copy h n l).2) ?_
    (fun x hx => hv.copyFlags h n l x hx) (fun x _ => Or.inl (hmemo x)) (hends o)
  exact Heap.Stops.of_missing _ l _ (by rw [hmemo]; exact hkey)

/-- Finite chains survive a fresh `copy` followed by `thaw()` and the
insertion of the entry for it. -/
theorem chainsEnd_copy_insert (v : Virt) (hv : v.FlagsOk) (h : Heap) (l : Lbl) (n : Obj)
    (hfresh : v.FreshCopy h l n) (hends : h.ChainsEnd l) :
    (((v.copy h n l).1.thaw l).memoPut l n (v.copy h n l).2).ChainsEnd l := by
  have hmemo : ∀ x, (v.copy h n l).1.memoGet l x = h.memoGet l x :=
    fun x => Heap.memoGet_congr h _ l x (hv.copyLabels h n l)
  intro o
  refine Heap.Stops.transfer (c := (v.copy h n l).2) ?_ ?_ ?_ (hends o)
  · apply Heap.Stops.of_missing
    rw [Heap.memoGet_thaw_memoPut, if_neg (Ne.symm hfresh.1), hmemo]
    exact hfresh.2
  · intro x hx
    rw [Heap.isFrozen_memoPut, Heap.isFrozen_thaw]
    exact hv.copyFlags h n l x hx
  · intro x _
    rw [Heap.memoGet_thaw_memoPut]
    by_cases hnx : n = x
    · right
      rw [if_pos hnx]
    · left
      rw [if_neg hnx, hmemo]

/-- C18: when every forwarding chain of a label is finite, the chain walks
of `mapPull` and `mapGet` finish for every object, and every chain of the
label is finite again in the heap `mapGet` leaves, and in the heap
`mapCopy` leaves, given that `copy` returns a fresh object that is not yet a
key of the memo (and that `copy` and `recycle` touch no label and no frozen
flag other than that of the copy and of the receiver). -/
theorem chains_terminate (v : Virt) (hv : v.FlagsOk) (h : Heap) (l : Lbl) (o : Obj)
    (hends : h.ChainsEnd l)
    (hfresh : ∀ n, h.isFrozen n = true → v.FreshCopy h l n) :
    (∃ fuel p g, mapPull fuel h l o = some p ∧ mapGet v fuel h l o = some g ∧
      g.heap.ChainsEnd l) ∧
    (v.FreshCopy h l o → (mapCopy v h l o).heap.ChainsEnd l) := by
  constructor
  · obtain ⟨fuel, w, hw⟩ := (hends o).walk none []
    obtain ⟨p, hp⟩ := mapPull_of_walk fuel h l o w hw
    obtain ⟨g, hg⟩ := mapGet_of_walk v fuel h l o w hw
    refine ⟨fuel, p, g, hp, hg, ?_⟩
    obtain ⟨n, tr, -, hcase⟩ := mapGet_cases v fuel h l o g hg
    rcases hcase with ⟨-, -, hh, -⟩ | ⟨-, hmiss, -, -, hh, -⟩ |
        ⟨hfz, -, -, -, -, hh, -⟩ | ⟨hfz, -, -, -, -, hh, -⟩
    · rw [hh]
      exact hends
    · rw [hh]
      exact chainsEnd_recycle v hv h l n hmiss hends
    · rw [hh]
      exact chainsEnd_copy_insert v hv h l n (hfresh n hfz) hends
    · rw [hh]
      exact chainsEnd_copy v hv h l n (hfresh n hfz).2 hends
  · intro hfo
    unfold mapCopy
    dsimp only
    split
    · exact chainsEnd_copy_insert v hv h l o hfo hends
    · exact chainsEnd_copy v hv h l o hfo.2 hends

theorem stdVirt_flagsOk : stdVirt.FlagsOk where
  copyLabels h o l := rfl
  copyFlags h o l x hx := by
    have hx' : x ≠ h.top := hx
    simp [stdVirt, Heap.isFrozen, Function.update_noteq hx']
  recycleLabels h o l := rfl
  recycleFlags h o l x hx := by
    simp [stdVirt, Heap.isFrozen, Function.update_noteq hx]

theorem exHeap_chainsEnd (l : Lbl) : exHeap.ChainsEnd l := by
  intro o
  exact Heap.Stops.of_missing exHeap l o rfl

theorem exHeap_freshCopy (l : Lbl) (n : Obj) (hn : exHeap.isFrozen n = true) :
    stdVirt.FreshCopy exHeap l n := by
  refine ⟨?_, rfl⟩
  intro he
  have h4 : n = 4 := he.symm
  subst h4
  exact Bool.noConfusion hn

/-- Witness for C18: object 0 of `exHeap` under label 0. -/
theorem chains_terminate_witness :
    (∃ fuel p g, mapPull fuel exHeap 0 0 = some p ∧ mapGet stdVirt fuel exHeap 0 0 = some g ∧
      g.heap.ChainsEnd 0) ∧
    (stdVirt.FreshCopy exHeap 0 0 → (mapCopy stdVirt exHeap 0 0).heap.ChainsEnd 0) :=
  chains_terminate stdVirt stdVirt_flagsOk exHeap 0 0 (exHeap_chainsEnd 0)
    (exHeap_freshCopy 0)

/-- C19 (as amended): copy construction of a label from a source whose lock
is free calls, in this order, `setWrite()`, `rehash()`, `downgrade()`,
`memo.copy()` and `unsetRead()`: the memo is rehashed under the write lock
and copied under the read lock, after the downgrade; at the end the lock of
the source is held in neither mode, and the memo of the new label and that
of the source map every key to the value the memo of the source mapped it to
(`rehash()` keeping the mapping). -/
theorem label_copy_construction (rehash : Memo → Memo) (o : LockedLabel)
    (hfree : o.lock = { writer := false, readers := 0 })
    (hrehash : ∀ (m : Memo) (k : Obj), (rehash m).get k = m.get k) :
    (Label.ctorCopy rehash o).trace =
      [(CtorCall.setWrite, { writer := false, readers := 0 }),
       (CtorCall.rehash, { writer := true, readers := 0 }),
       (CtorCall.downgrade, { writer := true, readers := 0 }),
       (CtorCall.copy, { writer := false, readers := 1 }),
       (CtorCall.unsetRead, { writer := false, readers := 1 })] ∧
    (Label.ctorCopy rehash o).source.lock = { writer := false, readers := 0 } ∧
    (∀ k, (Label.ctorCopy rehash o).made.state.memo.get k = o.state.memo.get k) ∧
    (∀ k, (Label.ctorCopy rehash o).source.state.memo.get k = o.state.memo.get k) := by
  refine ⟨?_, ?_, ?_, ?_⟩
  · simp [Label.ctorCopy, hfree, Lock.setWrite, Lock.downgrade]
  · simp [Label.ctorCopy, hfree, Lock.setWrite, Lock.downgrade, Lock.unsetRead]
  · intro k
    exact hrehash o.state.memo k
  · intro k
    exact hrehash o.state.memo k

/-- Witness for C19 (as amended): `exLockedLabel`, with a `rehash()` that
leaves the entries as they are. -/
theorem label_copy_construction_witness :
    (Label.ctorCopy id exLockedLabel).trace =
      [(CtorCall.setWrite, { writer := false, readers := 0 }),
       (CtorCall.rehash, { writer := true, readers := 0 }),
       (CtorCall.downgrade, { writer := true, readers := 0 }),
       (CtorCall.copy, { writer := false, readers := 1 }),
       (CtorCall.unsetRead, { writer := false, readers := 1 })] ∧
    (Label.ctorCopy id exLockedLabel).source.lock = { writer := false, readers := 0 } ∧
    (∀ k, (Label.ctorCopy id exLockedLabel).made.state.memo.get k =
      exLockedLabel.state.memo.get k) ∧
    (∀ k, (Label.ctorCopy id exLockedLabel).source.state.memo.get k =
      exLockedLabel.state.memo.get k) :=
  label_copy_construction id exLockedLabel rfl (fun _ _ => rfl)

/-- C19 fails as stated: in the copy construction from `exLockedLabel` the
calls are not in the order write lock, rehash, copy, downgrade, release, and
when `memo.copy()` is called the lock of the source is no longer held in
write mode: it is held by one reader. -/
theorem label_copy_construction_counterexample :
    (Label.ctorCopy id exLockedLabel).trace.map Prod.fst ≠
      [CtorCall.setWrite, CtorCall.rehash, CtorCall.copy, CtorCall.downgrade,
        CtorCall.unsetRead] ∧
    (CtorCall.copy, ({ writer := true, readers := 0 } : Lock)) ∉
      (Label.ctorCopy id exLockedLabel).trace ∧
    (CtorCall.copy, ({ writer := false, readers := 1 } : Lock)) ∈
      (Label.ctorCopy id exLockedLabel).trace := by
  decide

/-! Properties of weak pointers and casts. -/

/-- C15 (as amended): in a build with `USE_LAZY_DEEP_CLONE`, `pull()` on a
weak pointer whose reference is empty returns the empty target, makes no call
and changes neither the object nor the memo; on one whose reference is not
empty it calls `memo->forwardPull()`, stores the result in `memo`, then calls
`clone_pull(object, memo)` with that refreshed memo and returns the object
this leaves.  In a build without `USE_LAZY_DEEP_CLONE`, `pull()` returns the
target, makes no call and changes nothing.  In both builds the const
overload gives the same result and the same changes as the mutable one. -/
theorem weak_pull {σ : Type} (env : CloneEnv σ) (w : WeakCOW) (s : σ) :
    (env.useLazyDeepClone = true →
      (w.object = none →
        WeakCOW.pull env w s = { ret := none, self := w, world := s, trace := [] }) ∧
      (∀ o, w.object = some o →
        WeakCOW.pull env w s =
          { ret := (env.clonePull (env.forwardPull s w.memo).1 o (env.forwardPull s w.memo).2).2
            self :=
              { object :=
                  (env.clonePull (env.forwardPull s w.memo).1 o (env.forwardPull s w.memo).2).2
                memo := (env.forwardPull s w.memo).2 }
            world :=
              (env.clonePull (env.forwardPull s w.memo).1 o (env.forwardPull s w.memo).2).1
            trace := [PullCall.forwardPull w.memo,
              PullCall.clonePull o (env.forwardPull s w.memo).2] })) ∧
    (env.useLazyDeepClone = false →
      WeakCOW.pull env w s = { ret := w.object, self := w, world := s, trace := [] }) ∧
    WeakCOW.pullConst env w s = WeakCOW.pull env w s := by
  refine ⟨?_, ?_, rfl⟩
  · intro hlazy
    constructor
    · intro hnone
      simp [WeakCOW.pull, hlazy, hnone]
    · intro o ho
      simp [WeakCOW.pull, hlazy, ho]
  · intro heager
    simp [WeakCOW.pull, heager]

/-- C15 fails as stated: in the build `exEagerEnv`, without
`USE_LAZY_DEEP_CLONE`, `pull()` on a weak pointer to object 0 under context 0
makes no call, leaves the memo at 0 although `forwardPull()` would give 1,
and returns object 0 although `clone_pull` would give object 1. -/
theorem weak_pull_counterexample :
    (WeakCOW.pull exEagerEnv { object := some 0, memo := 0 } 0).trace = [] ∧
    (WeakCOW.pull exEagerEnv { object := some 0, memo := 0 } 0).self.memo = 0 ∧
    (exEagerEnv.forwardPull 0 0).2 = 1 ∧
    (WeakCOW.pull exEagerEnv { object := some 0, memo := 0 } 0).ret = some 0 ∧
    (exEagerEnv.clonePull 1 0 1).2 = some 1 := by
  decide

/-- C16: the non-identity cast of a pointer returns an optional holding a
pointer to the same object with the label of `from` when the dynamic type of
the object is the target type or derives from it, and `nil` when it is not
and when `from` is null; it returns a value for every input; the overload
for an optional returns `nil` for an empty optional and the cast of its
content otherwise. -/
theorem cast_spec (env : TypeEnv) (t : TypeId) (frm : Pointer) :
    (∀ o, frm.get = some o → env.isA (env.dynType o) t = true →
      cast env t frm = some { ptr := some o, label := frm.getLabel }) ∧
    (∀ o, frm.get = some o → env.isA (env.dynType o) t = false → cast env t frm = none) ∧
    (frm.get = none → cast env t frm = none) ∧
    ((cast env t frm).isSome = true ↔
      ∃ o, frm.get = some o ∧ env.isA (env.dynType o) t = true) ∧
    castOptional env t none = none ∧
    castOptional env t (some frm) = cast env t frm := by
  refine ⟨?_, ?_, ?_, ?_, rfl, rfl⟩
  · intro o ho hisa
    simp [cast, dynamicCast, ho, hisa]
  · intro o ho hisa
    simp [cast, dynamicCast, ho, hisa]
  · intro hnone
    simp [cast, dynamicCast, hnone]
  · cases hget : frm.get with
    | none => simp [cast, dynamicCast, hget]
    | some o =>
      cases hisa : env.isA (env.dynType o) t <;> simp [cast, dynamicCast, hget, hisa]

/-! Properties of names. -/

theorem strCompare_eq_zero (a b : String) : (strCompare a b == 0) = decide (a = b) := by
  unfold strCompare
  by_cases h : a = b
  · simp [h]
  · by_cases hlt : a < b <;> simp [h, hlt]

/-- C24: for all names `a` and `b`, `a <= b` and `a == b` are the same test,
true exactly when the two strings are equal; `a < b` is false and `a >= b`
is true for every pair; `a > b` holds exactly when `a != b` holds, that is
when the strings differ. -/
theorem name_comparisons (a b : Name) :
    Name.le a b = Name.eq a b ∧
    (Name.le a b = true ↔ a.name = b.name) ∧
    (Name.eq a b = true ↔ a.name = b.name) ∧
    Name.lt a b = false ∧
    Name.ge a b = true ∧
    Name.gt a b = Name.ne a b ∧
    (Name.gt a b = true ↔ a.name ≠ b.name) := by
  have hle : Name.le a b = decide (a.name = b.name) := strCompare_eq_zero a.name b.name
  have heq : Name.eq a b = decide (a.name = b.name) := strCompare_eq_zero a.name b.name
  refine ⟨rfl, ?_, ?_, ?_, ?_, rfl, ?_⟩
  · rw [hle]
    exact decide_eq_true_iff
  · rw [heq]
    exact decide_eq_true_iff
  · simp [Name.lt, Name.ne, hle, heq]
  · simp [Name.ge, Name.lt, Name.ne, hle, heq]
  · simp [Name.gt, hle]

/-! Properties of labels: `mapGet` against `mapPull`, owning contexts. -/

/-- C22: `mapGet(o)` and `mapPull(o)` walk the same chain: when `mapPull(o)`
returns an object `r`, `mapGet(o)` returns as well, after the same lookups;
if `r` is not frozen, `mapGet(o)` returns `r`, makes no other call (no copy,
no recycle, no insertion) and leaves the heap as it was; if `r` is frozen,
`r` is the object `mapGet(o)` works on: it calls `recycle` on `r` and
returns `r` when `r` is uniquely owned, and calls `copy` on `r` and returns
the copy otherwise, and every copy or recycle call it makes is on `r`. -/
theorem mapGet_follows_mapPull (v : Virt) (fuel : Nat) (h : Heap) (l : Lbl) (o : Obj)
    (p : Out) (hpull : mapPull fuel h l o = some p) :
    ∃ out, mapGet v fuel h l o = some out ∧
      (∀ e ∈ p.trace, ∃ k, e = Event.memoGet l k) ∧
      (h.isFrozen p.ret = false →
        out.ret = p.ret ∧ out.heap = h ∧ out.trace = p.trace) ∧
      (h.isFrozen p.ret = true → h.isUnique p.ret = true →
        out.ret = p.ret ∧ out.heap = v.recycle h p.ret l ∧
        out.trace = p.trace ++ [Event.recycle p.ret l]) ∧
      (h.isFrozen p.ret = true → h.isUnique p.ret = false →
        out.ret = (v.copy h p.ret l).2 ∧
        (out.trace = p.trace ++ [Event.copy p.ret l] ∨
          out.trace = p.trace ++ [Event.copy p.ret l, Event.thaw l,
            Event.memoPut l p.ret out.ret])) ∧
      (∀ x l', Event.copy x l' ∈ out.trace → x = p.ret) ∧
      (∀ x l', Event.recycle x l' ∈ out.trace → x = p.ret) := by
  obtain ⟨w, hw, hlast, -, htr⟩ := mapPull_some fuel h l o p hpull
  obtain ⟨n, hlast', hfzw, -⟩ := chainWalk_last h l fuel o w hw
  have hn : n = p.ret := by
    rw [hlast] at hlast'
    exact (Option.some.inj hlast').symm
  subst hn
  have hlookups : ∀ e ∈ p.trace, ∃ k, e = Event.memoGet l k := by
    rw [htr]
    exact chainWalk_start_trace h l fuel o w hw
  have hnocopy : ∀ x l', Event.copy x l' ∉ p.trace := by
    intro x l' hmem
    obtain ⟨k, hk⟩ := hlookups _ hmem
    exact Event.noConfusion hk
  have hnorec : ∀ x l', Event.recycle x l' ∉ p.trace := by
    intro x l' hmem
    obtain ⟨k, hk⟩ := hlookups _ hmem
    exact Event.noConfusion hk
  unfold mapGet
  rw [hw]
  simp only [hlast, ← htr]
  cases hfz : h.isFrozen p.ret with
  | false =>
    rw [hfz] at hfzw
    simp only [← hfzw, Bool.false_eq_true, if_false]
    refine ⟨_, rfl, hlookups, fun _ => ⟨rfl, rfl, rfl⟩, ?_, ?_, ?_, ?_⟩
    · intro hc
      cases hc
    · intro hc
      cases hc
    · intro x l' hmem
      exact absurd hmem (hnocopy x l')
    · intro x l' hmem
      exact absurd hmem (hnorec x l')
  | true =>
    rw [hfz] at hfzw
    simp only [← hfzw, if_true]
    cases hu : h.isUnique p.ret with
    | true =>
      simp only [if_true]
      refine ⟨_, rfl, hlookups, ?_, fun _ _ => ⟨rfl, rfl, rfl⟩, ?_, ?_, ?_⟩
      · intro hc
        cases hc
      · intro _ hc
        cases hc
      · intro x l' hmem
        simp only [List.mem_append, List.mem_singleton] at hmem
        rcases hmem with hmem | hmem
        · exact absurd hmem (hnocopy x l')
        · exact Event.noConfusion hmem
      · intro x l' hmem
        simp only [List.mem_append, List.mem_singleton, Event.recycle.injEq] at hmem
        rcases hmem with hmem | hmem
        · exact absurd hmem (hnorec x l')
        · exact hmem.1
    | false =>
      simp only [Bool.false_eq_true, if_false]
      cases hfu : (v.copy h p.ret l).1.isFrozenUnique p.ret with
      | false =>
        simp only [Bool.not_false, if_true]
        refine ⟨_, rfl, hlookups, ?_, ?_, fun _ _ => ⟨rfl, Or.inr rfl⟩, ?_, ?_⟩
        · intro hc
          cases hc
        · intro _ hc
          cases hc
        · intro x l' hmem
          simp only [List.mem_append, List.mem_cons, Event.copy.injEq, List.mem_singleton]
            at hmem
          rcases hmem with hmem | hmem | hmem | hmem | hmem
          · exact absurd hmem (hnocopy x l')
          · exact hmem.1
          · exact Event.noConfusion hmem
          · exact Event.noConfusion hmem
          · exact absurd hmem (List.not_mem_nil _)
        · intro x l' hmem
          simp only [List.mem_append, List.mem_cons, List.mem_singleton] at hmem
          rcases hmem with hmem | hmem | hmem | hmem | hmem
          · exact absurd hmem (hnorec x l')
          · exact Event.noConfusion hmem
          · exact Event.noConfusion hmem
          · exact Event.noConfusion hmem
          · exact absurd hmem (List.not_mem_nil _)
      | true =>
        simp only [Bool.not_true, Bool.false_eq_true, if_false]
        refine ⟨_, rfl, hlookups, ?_, ?_, fun _ _ => ⟨rfl, Or.inl rfl⟩, ?_, ?_⟩
        · intro hc
          cases hc
        · intro _ hc
          cases hc
        · intro x l' hmem
          simp only [List.mem_append, List.mem_singleton, Event.copy.injEq] at hmem
          rcases hmem with hmem | hmem
          · exact absurd hmem (hnocopy x l')
          · exact hmem.1
        · intro x l' hmem
          simp only [List.mem_append, List.mem_singleton] at hmem
          rcases hmem with hmem | hmem
          · exact absurd hmem (hnorec x l')
          · exact Event.noConfusion hmem

/-- Witness for C22: object 0 of `exHeap`, on which `mapPull` ends. -/
theorem mapGet_follows_mapPull_witness :
    ∃ out, mapGet stdVirt 1 exHeap 0 0 = some out ∧
      (∀ e ∈ ([Event.memoGet 0 0] : List Event), ∃ k, e = Event.memoGet 0 k) ∧
      (exHeap.isFrozen 0 = false →
        out.ret = 0 ∧ out.heap = exHeap ∧ out.trace = [Event.memoGet 0 0]) ∧
      (exHeap.isFrozen 0 = true → exHeap.isUnique 0 = true →
        out.ret = 0 ∧ out.heap = stdVirt.recycle exHeap 0 0 ∧
        out.trace = [Event.memoGet 0 0] ++ [Event.recycle 0 0]) ∧
      (exHeap.isFrozen 0 = true → exHeap.isUnique 0 = false →
        out.ret = (stdVirt.copy exHeap 0 0).2 ∧
        (out.trace = [Event.memoGet 0 0] ++ [Event.copy 0 0] ∨
          out.trace = [Event.memoGet 0 0] ++ [Event.copy 0 0, Event.thaw 0,
            Event.memoPut 0 0 out.ret])) ∧
      (∀ x l', Event.copy x l' ∈ out.trace → x = 0) ∧
      (∀ x l', Event.recycle x l' ∈ out.trace → x = 0) :=
  mapGet_follows_mapPull stdVirt 1 exHeap 0 0 ⟨0, exHeap, [Event.memoGet 0 0]⟩ rfl

theorem chainWalk_trace_prefix (h : Heap) (l : Lbl) :
    ∀ (fuel : Nat) (w w' : Walk), chainWalk h l fuel w = some w' →
      ∃ tr, w'.trace = w.trace ++ tr := by
  intro fuel
  induction fuel with
  | zero =>
    intro w w' hw
    rcases w with ⟨prev, next, frozen, tr⟩
    cases frozen <;> cases next <;> simp [chainWalk] at hw <;> subst hw <;>
      exact ⟨[], by simp⟩
  | succ fuel ih =>
    intro w w' hw
    rcases w with ⟨prev, next, frozen, tr⟩
    cases frozen with
    | false =>
      simp only [chainWalk, Option.some.injEq] at hw
      subst hw
      exact ⟨[], by simp⟩
    | true =>
      cases next with
      | none =>
        simp only [chainWalk, Option.some.injEq] at hw
        subst hw
        exact ⟨[], by simp⟩
      | some n =>
        rw [chainWalk_step] at hw
        obtain ⟨tr', htr'⟩ := ih _ w' hw
        exact ⟨[Event.memoGet l n] ++ tr', by rw [htr', List.append_assoc]⟩

theorem chainWalk_withContext (h : Heap) (ctx : Obj → Option Lbl) (l : Lbl) :
    ∀ (fuel : Nat) (w : Walk),
      chainWalk (h.withContext ctx) l fuel w = chainWalk h l fuel w := by
  intro fuel
  induction fuel with
  | zero =>
    intro w
    rfl
  | succ fuel ih =>
    intro w
    rcases w with ⟨prev, next, frozen, tr⟩
    cases frozen with
    | false => rfl
    | true =>
      cases next with
      | none => rfl
      | some n =>
        rw [chainWalk_step, chainWalk_step]
        exact ih _

theorem mapGet_trace_walk (v : Virt) (fuel : Nat) (h : Heap) (l : Lbl) (o : Obj)
    (w : Walk) (out : Out) (hw : chainWalk h l fuel (Walk.start h o) = some w)
    (hout : mapGet v fuel h l o = some out) : ∃ tail, out.trace = w.trace ++ tail := by
  unfold mapGet at hout
  rw [hw] at hout
  obtain ⟨n, hlast, -, -⟩ := chainWalk_last h l fuel o w hw
  simp only [hlast] at hout
  split at hout
  · split at hout
    · simp only [Option.some.injEq] at hout
      subst hout
      exact ⟨_, rfl⟩
    · split at hout <;>
      · simp only [Option.some.injEq] at hout
        subst hout
        exact ⟨_, rfl⟩
  · simp only [Option.some.injEq] at hout
    subst hout
    exact ⟨[], by simp⟩

/-- C21 (as amended): for every label and every object `o`, whether it has
an owning context or none, the chain walk does not depend on the owning
contexts of the heap; `mapGet(o)` whose chain walk finishes makes no call at
all (no memo lookup, no insertion, no copy) exactly when `o` is not frozen,
and then returns `o` and leaves the heap as it was, and when `o` is frozen
its first call is the lookup of `o` in the memo; `mapCopy(o)` always calls
`copy` on `o` exactly once and returns the copy, looks nothing up, and
inserts `(o, copy)` into the memo exactly when `o.isFrozenUnique()` is
false, inserting nothing else. -/
theorem mapGet_mapCopy_owner (v : Virt) (fuel : Nat) (h : Heap) (l : Lbl) (o : Obj)
    (hfin : (chainWalk h l fuel (Walk.start h o)).isSome = true) :
    (∀ ctx : Obj → Option Lbl,
      chainWalk (h.withContext ctx) l fuel (Walk.start (h.withContext ctx) o) =
        chainWalk h l fuel (Walk.start h o)) ∧
    (∃ out, mapGet v fuel h l o = some out ∧
      (out.trace = [] ↔ h.isFrozen o = false) ∧
      (h.isFrozen o = false → out.ret = o ∧ out.heap = h) ∧
      (h.isFrozen o = true → out.trace.head? = some (Event.memoGet l o))) ∧
    (mapCopy v h l o).trace.count (Event.copy o l) = 1 ∧
    (mapCopy v h l o).ret = (v.copy h o l).2 ∧
    (∀ k l', Event.memoGet l' k ∉ (mapCopy v h l o).trace) ∧
    (Event.memoPut l o (v.copy h o l).2 ∈ (mapCopy v h l o).trace ↔
      (v.copy h o l).1.isFrozenUnique o = false) ∧
    (∀ l' k c, Event.memoPut l' k c ∈ (mapCopy v h l o).trace →
      l' = l ∧ k = o ∧ c = (v.copy h o l).2) := by
  obtain ⟨w, hw⟩ := Option.isSome_iff_exists.mp hfin
  obtain ⟨out, hout⟩ := mapGet_of_walk v fuel h l o w hw
  obtain ⟨tail, htail⟩ := mapGet_trace_walk v fuel h l o w out hw hout
  have hfrozen : h.isFrozen o = true → out.trace.head? = some (Event.memoGet l o) := by
    intro hfz
    cases fuel with
    | zero => simp [chainWalk, Walk.start, hfz] at hw
    | succ fuel =>
      simp only [Walk.start, hfz, chainWalk_step] at hw
      obtain ⟨tr, htr⟩ := chainWalk_trace_prefix h l fuel _ w hw
      rw [htail, htr]
      simp
  have hnot : h.isFrozen o = false → out = ⟨o, h, []⟩ := by
    intro hnf
    have hw0 : chainWalk h l fuel (Walk.start h o) = some (Walk.start h o) :=
      chainWalk_done h l fuel _ (Or.inl hnf)
    unfold mapGet at hout
    rw [hw0] at hout
    simp only [Walk.last, Walk.start, hnf, Bool.false_eq_true, if_false,
      Option.some.injEq] at hout
    exact hout.symm
  have hcopy : (mapCopy v h l o).trace.count (Event.copy o l) = 1 ∧
      (mapCopy v h l o).ret = (v.copy h o l).2 ∧
      (∀ k l', Event.memoGet l' k ∉ (mapCopy v h l o).trace) ∧
      (Event.memoPut l o (v.copy h o l).2 ∈ (mapCopy v h l o).trace ↔
        (v.copy h o l).1.isFrozenUnique o = false) ∧
      (∀ l' k c, Event.memoPut l' k c ∈ (mapCopy v h l o).trace →
        l' = l ∧ k = o ∧ c = (v.copy h o l).2) := by
    cases hfu : (v.copy h o l).1.isFrozenUnique o <;> simp [mapCopy, hfu]
  refine ⟨?_, ⟨out, hout, ?_, ?_, hfrozen⟩, hcopy⟩
  · intro ctx
    exact chainWalk_withContext h ctx l fuel _
  · constructor
    · intro hnil
      cases hfz : h.isFrozen o with
      | false => rfl
      | true =>
        have := hfrozen hfz
        rw [hnil] at this
        exact Option.noConfusion this
    · intro hnf
      rw [hnot hnf]
  · intro hnf
    rw [hnot hnf]
    exact ⟨rfl, rfl⟩

/-- Witness for C21 (as amended): object 0 of `exHeap`, which has no owning
context. -/
theorem mapGet_mapCopy_owner_witness :
    exHeap.getContext 0 = none ∧
    (∀ ctx : Obj → Option Lbl,
      chainWalk (exHeap.withContext ctx) 0 1 (Walk.start (exHeap.withContext ctx) 0) =
        chainWalk exHeap 0 1 (Walk.start exHeap 0)) ∧
    (∃ out, mapGet stdVirt 1 exHeap 0 0 = some out ∧
      (out.trace = [] ↔ exHeap.isFrozen 0 = false) ∧
      (exHeap.isFrozen 0 = false → out.ret = 0 ∧ out.heap = exHeap) ∧
      (exHeap.isFrozen 0 = true → out.trace.head? = some (Event.memoGet 0 0))) ∧
    (mapCopy stdVirt exHeap 0 0).trace.count (Event.copy 0 0) = 1 ∧
    (mapCopy stdVirt exHeap 0 0).ret = (stdVirt.copy exHeap 0 0).2 ∧
    (∀ k l', Event.memoGet l' k ∉ (mapCopy stdVirt exHeap 0 0).trace) ∧
    (Event.memoPut 0 0 (stdVirt.copy exHeap 0 0).2 ∈ (mapCopy stdVirt exHeap 0 0).trace ↔
      (stdVirt.copy exHeap 0 0).1.isFrozenUnique 0 = false) ∧
    (∀ l' k c, Event.memoPut l' k c ∈ (mapCopy stdVirt exHeap 0 0).trace →
      l' = 0 ∧ k = 0 ∧ c = (stdVirt.copy exHeap 0 0).2) :=
  ⟨by decide, mapGet_mapCopy_owner stdVirt 1 exHeap 0 0 (by decide)⟩

/-- C21 fails as stated: objects 0 and 2 of `exHeap` have no owning context,
yet `mapGet(0)` looks object 0 up in the memo, copies it and inserts an
entry, and `mapCopy` copies object 0 and object 2 and inserts an entry for
each. -/
theorem mapGet_mapCopy_owner_counterexample :
    exHeap.getContext 0 = none ∧ exHeap.getContext 2 = none ∧
    (∃ out, mapGet stdVirt 1 exHeap 0 0 = some out ∧
      out.trace = [Event.memoGet 0 0, Event.copy 0 0, Event.thaw 0, Event.memoPut 0 0 4]) ∧
    (mapCopy stdVirt exHeap 0 0).trace =
      [Event.copy 0 0, Event.thaw 0, Event.memoPut 0 0 4] ∧
    (mapCopy stdVirt exHeap 0 2).trace =
      [Event.copy 2 0, Event.thaw 0, Event.memoPut 0 2 4] :=
  ⟨by decide, by decide, ⟨_, rfl, by decide⟩, by decide, by decide⟩

/-! Properties of overloaded dictionaries. -/

theorem overloadedStore_same {π : Type} (l : List (String × π)) (key : String) (p : π)
    (hfind : overloadedFind l key = some p) : overloadedStore l key p = l := by
  induction l with
  | nil => rfl
  | cons e rest ih =>
    rcases e with ⟨k, q⟩
    by_cases hk : k = key
    · simp only [overloadedFind, hk, if_true, Option.some.injEq] at hfind
      simp [overloadedStore, hk, hfind]
    · simp only [overloadedFind, hk, if_false] at hfind
      simp [overloadedStore, hk, ih hfind]

theorem candidatesOf_append (a b : List MsgItem) :
    candidatesOf (a ++ b) = candidatesOf a ++ candidatesOf b := by
  induction a with
  | nil => rfl
  | cons x rest ih =>
    cases x <;> simp [candidatesOf, ih]

theorem candidatesOf_candidateItems (ms : List Parameter) :
    candidatesOf (candidateItems ms) = ms := by
  induction ms with
  | nil => rfl
  | cons p rest ih =>
    cases hloc : p.loc <;>
      simp [candidateItems, hloc, candidatesOf, candidatesOf_append, ih]

theorem candidatesOf_ctor (ref : Reference) (ms : List Parameter) :
    candidatesOf (AmbiguousReferenceException.ctor ref ms).msg = ms := by
  cases hloc : ref.loc <;>
    simp [AmbiguousReferenceException.ctor, hloc, candidatesOf, candidatesOf_append,
      candidatesOf_candidateItems]

/-- How `resolve` ends on each shape of the list of matches. -/
theorem resolve_snd {π : Type} (find : π → Reference → π × List Parameter)
    (d : OverloadedDictionary π) (ref : Reference) :
    (overloadedFind d.overloaded ref.name.name = none →
      (d.resolve find ref).2 = Resolution.unresolved { ref := ref }) ∧
    (∀ poset, overloadedFind d.overloaded ref.name.name = some poset →
      (find poset ref).2 = [] →
      (d.resolve find ref).2 = Resolution.unresolved { ref := ref }) ∧
    (∀ poset p, overloadedFind d.overloaded ref.name.name = some poset →
      (find poset ref).2 = [p] → (d.resolve find ref).2 = Resolution.returned p) ∧
    (∀ poset, overloadedFind d.overloaded ref.name.name = some poset →
      1 < (find poset ref).2.length →
      (d.resolve find ref).2 =
        Resolution.ambiguous (AmbiguousReferenceException.ctor ref (find poset ref).2)) := by
  refine ⟨?_, ?_, ?_, ?_⟩
  · intro hnone
    simp [OverloadedDictionary.resolve, hnone]
  · intro poset hsome hm
    simp [OverloadedDictionary.resolve, hsome, hm]
  · intro poset p hsome hm
    simp [OverloadedDictionary.resolve, hsome, hm]
  · intro poset hsome hm
    have h0 : ¬ (find poset ref).2.length = 0 := by omega
    simp [OverloadedDictionary.resolve, hsome, h0, hm]

/-- C23: `resolve(ref)` returns a parameter `p` if and only if there is a
poset under the name of `ref` and it yields exactly the one match `p`; it
throws `UnresolvedReferenceException`, built from `ref`, if and only if
there is no entry under that name or the entry yields no match; it throws
`AmbiguousReferenceException` if and only if the entry yields more than one
match, and the exception is the one built from `ref` and all the matches,
whose message names every match as a candidate; the dictionary is as it was
after the call, `find` leaving the poset as it is. -/
theorem resolve_outcomes {π : Type} (find : π → Reference → π × List Parameter)
    (d : OverloadedDictionary π) (ref : Reference)
    (hfind : ∀ (poset : π) (r : Reference), (find poset r).1 = poset) :
    (∀ p, (d.resolve find ref).2 = Resolution.returned p ↔
      ∃ poset, overloadedFind d.overloaded ref.name.name = some poset ∧
        (find poset ref).2 = [p]) ∧
    (∀ e, (d.resolve find ref).2 = Resolution.unresolved e ↔
      (e = { ref := ref } ∧
        (overloadedFind d.overloaded ref.name.name = none ∨
          ∃ poset, overloadedFind d.overloaded ref.name.name = some poset ∧
            (find poset ref).2 = []))) ∧
    (∀ e, (d.resolve find ref).2 = Resolution.ambiguous e ↔
      ∃ poset, overloadedFind d.overloaded ref.name.name = some poset ∧
        1 < (find poset ref).2.length ∧
        e = AmbiguousReferenceException.ctor ref (find poset ref).2) ∧
    (∀ ms, candidatesOf (AmbiguousReferenceException.ctor ref ms).msg = ms) ∧
    (d.resolve find ref).1 = d := by
  obtain ⟨hnone, hzero, hone, hmany⟩ := resolve_snd find d ref
  have hdict : (d.resolve find ref).1 = d := by
    unfold OverloadedDictionary.resolve
    cases hf : overloadedFind d.overloaded ref.name.name with
    | none => rfl
    | some poset =>
      have hst : overloadedStore d.overloaded ref.name.name (find poset ref).1 =
          d.overloaded := by
        rw [hfind]
        exact overloadedStore_same d.overloaded ref.name.name poset hf
      dsimp only
      rw [hst]
      split
      · rfl
      · split <;> rfl
  refine ⟨?_, ?_, ?_, candidatesOf_ctor ref, hdict⟩
  · intro p
    cases hf : overloadedFind d.overloaded ref.name.name with
    | none =>
      rw [hnone hf]
      simp
    | some poset =>
      cases hm : (find poset ref).2 with
      | nil =>
        rw [hzero poset hf hm]
        simp [hm]
      | cons a rest =>
        cases rest with
        | nil =>
          rw [hone poset a hf hm]
          simp [hm, eq_comm]
        | cons b rest =>
          rw [hmany poset hf (by simp [hm])]
          simp [hm]
  · intro e
    cases hf : overloadedFind d.overloaded ref.name.name with
    | none =>
      rw [hnone hf]
      simp [eq_comm]
    | some poset =>
      cases hm : (find poset ref).2 with
      | nil =>
        rw [hzero poset hf hm]
        simp [hm, eq_comm]
      | cons a rest =>
        cases rest with
        | nil =>
          rw [hone poset a hf hm]
          simp [hm]
        | cons b rest =>
          rw [hmany poset hf (by simp [hm])]
          simp [hm]
  · intro e
    cases hf : overloadedFind d.overloaded ref.name.name with
    | none =>
      rw [hnone hf]
      simp
    | some poset =>
      cases hm : (find poset ref).2 with
      | nil =>
        rw [hzero poset hf hm]
        simp [hm]
      | cons a rest =>
        cases rest with
        | nil =>
          rw [hone poset a hf hm]
          simp [hm]
        | cons b rest =>
          rw [hmany poset hf (by simp [hm])]
          simp [hm, eq_comm]

theorem exFind_fst (poset : List Parameter) (r : Reference) : (exFind poset r).1 = poset :=
  rfl

/-- Witness for C23: the reference to `f` of identity 1 in `exDictionary`,
which has two matches. -/
theorem resolve_outcomes_witness :
    (∀ p, (exDictionary.resolve exFind
        { name := { name := "f", loc := none }, loc := none, id := 1 }).2 =
        Resolution.returned p ↔
      ∃ poset, overloadedFind exDictionary.overloaded "f" = some poset ∧
        (exFind poset { name := { name := "f", loc := none }, loc := none, id := 1 }).2 =
          [p]) ∧
    (∀ e, (exDictionary.resolve exFind
        { name := { name := "f", loc := none }, loc := none, id := 1 }).2 =
        Resolution.unresolved e ↔
      (e = { ref := { name := { name := "f", loc := none }, loc := none, id := 1 } } ∧
        (overloadedFind exDictionary.overloaded "f" = none ∨
          ∃ poset, overloadedFind exDictionary.overloaded "f" = some poset ∧
            (exFind poset
              { name := { name := "f", loc := none }, loc := none, id := 1 }).2 = []))) ∧
    (∀ e, (exDictionary.resolve exFind
        { name := { name := "f", loc := none }, loc := none, id := 1 }).2 =
        Resolution.ambiguous e ↔
      ∃ poset, overloadedFind exDictionary.overloaded "f" = some poset ∧
        1 < (exFind poset
          { name := { name := "f", loc := none }, loc := none, id := 1 }).2.length ∧
        e = AmbiguousReferenceException.ctor
          { name := { name := "f", loc := none }, loc := none, id := 1 }
          (exFind poset
            { name := { name := "f", loc := none }, loc := none, id := 1 }).2) ∧
    (∀ ms, candidatesOf (AmbiguousReferenceException.ctor
      { name := { name := "f", loc := none }, loc := none, id := 1 } ms).msg = ms) ∧
    (exDictionary.resolve exFind
      { name := { name := "f", loc := none }, loc := none, id := 1 }).1 = exDictionary :=
  resolve_outcomes exFind exDictionary
    { name := { name := "f", loc := none }, loc := none, id := 1 } exFind_fst

end libbirch
